import Mathlib

/-!
# randomart.c : the worm that draws a key fingerprint

A shallow embedding of `key_fingerprint_randomart` (src/randomart.c) and the
properties of its walk and of the picture it returns.

Conventions of the embedding
* `int x, y` are `Int`; the byte read by `fgetc` is a `Fin 256` and lives in a
  `Nat` once it is known not to be `EOF`.
* `u_char field[FLDSIZE_X][FLDSIZE_Y]` is the flat list of its bytes, the cell
  `field[x][y]` at offset `x * FLDSIZE_Y + y`.
* every array access is bounds checked: `none` stands for an access outside
  the array (undefined behaviour in C).
-/

namespace Randomart

/-! ## Constants and macros -/

def FLDBASE : Nat := 8
def FLDSIZE_Y : Nat := FLDBASE + 1
def FLDSIZE_X : Nat := FLDBASE * 2 + 1

/-- The macro `MAX(a,b) (((a)>(b))?(a):(b))`. -/
def MAX {α : Type} [LT α] [∀ a b : α, Decidable (a > b)] (a b : α) : α :=
  if a > b then a else b

/-- The macro `MIN(a,b) (((a)<(b))?(a):(b))`. -/
def MIN {α : Type} [LT α] [∀ a b : α, Decidable (a < b)] (a b : α) : α :=
  if a < b then a else b

/-- The terminating byte of a C string. -/
def NUL : Char := Char.ofNat 0

/-- Chars to be used after each other every time the worm intersects with
itself. -/
def augmentation_string : List Char := " .o+=*BOX@%&#/^SE".toList

/-- The function `strlen`: the number of chars before the first NUL. -/
def strlen (s : List Char) : Nat := (s.takeWhile (fun c => c != NUL)).length

/-- The local `size_t len = strlen(augmentation_string) - 1`. -/
def len : Nat := strlen augmentation_string - 1

/-! ## The field -/

/-- The bytes of `u_char field[FLDSIZE_X][FLDSIZE_Y]`. -/
abbrev Field := List Nat

/-- The statement `memset(field, 0, FLDSIZE_X * FLDSIZE_Y * sizeof(char))`. -/
def memset0 : Field := List.replicate (FLDSIZE_X * FLDSIZE_Y) 0

/-- Is `field[x][y]` a cell of the array? -/
def inField (x y : Int) : Prop :=
  0 ≤ x ∧ x < (FLDSIZE_X : Int) ∧ 0 ≤ y ∧ y < (FLDSIZE_Y : Int)

instance (x y : Int) : Decidable (inField x y) := by
  unfold inField; infer_instance

/-- The offset of `field[x][y]` in the array. -/
def offset (x y : Int) : Nat := x.toNat * FLDSIZE_Y + y.toNat

/-- Reading `field[x][y]`. -/
def fieldGet (field : Field) (x y : Int) : Option Nat :=
  if inField x y then field[offset x y]? else none

/-- The assignment `field[x][y] = v`, the value truncated to a `u_char`. -/
def fieldSet (field : Field) (x y : Int) (v : Nat) : Option Field :=
  if inField x y ∧ offset x y < field.length then
    some (field.set (offset x y) (v % 256))
  else none

/-! ## The walk -/

/-- The locals `field`, `x` and `y`. -/
structure Worm where
  field : Field
  x : Int
  y : Int
deriving DecidableEq, Repr

/-- The locals after `memset`, `x = FLDSIZE_X / 2` and `y = FLDSIZE_Y / 2`. -/
def start : Worm :=
  { field := memset0, x := ((FLDSIZE_X / 2 : Nat) : Int), y := ((FLDSIZE_Y / 2 : Nat) : Int) }

/-- One turn of the loop over `b`, without the shift of `input`: the move, the
bounds and the augmentation of the field. -/
def move (w : Worm) (input : Nat) : Option Worm :=
  -- evaluate 2 bit, rest is shifted later
  let x := w.x + (if input &&& 0x1 ≠ 0 then 1 else -1)
  let y := w.y + (if input &&& 0x2 ≠ 0 then 1 else -1)
  -- assure we are still in bounds
  let x := MAX x 0
  let y := MAX y 0
  let x := MIN x ((FLDSIZE_X : Int) - 1)
  let y := MIN y ((FLDSIZE_Y : Int) - 1)
  -- augment the field
  do
    let v ← fieldGet w.field x y
    let field ← if v < len - 2 then fieldSet w.field x y (v + 1) else some w.field
    some { field := field, x := x, y := y }

/-- The loop `for (b = 0; b < 4; b++)`, with `n` turns still to run. -/
def moves : Nat → Worm → Nat → Option Worm
  | 0, w, _ => some w
  | n + 1, w, input => do
    let w ← move w input
    moves n w (input >>> 2)

/-- The loop `while ((input = fgetc(stream)) != EOF)`. -/
def crawl : Worm → List (Fin 256) → Option Worm
  | w, [] => some w
  | w, input :: stream => do
    let w ← moves 4 w input.val
    crawl w stream

/-- Mark starting point and end point. -/
def mark (w : Worm) : Option Worm := do
  let field ← fieldSet w.field ((FLDSIZE_X / 2 : Nat) : Int) ((FLDSIZE_Y / 2 : Nat) : Int) (len - 1)
  let field ← fieldSet field w.x w.y len
  some { w with field := field }

/-! ## The output buffer -/

/-- The buffer `retval` and the write position `p`, as an offset into it. -/
structure Out where
  retval : List Char
  p : Nat
deriving DecidableEq, Repr

/-- The statement `*p++ = c`. -/
def put (o : Out) (c : Char) : Option Out :=
  if o.p < o.retval.length then some { retval := o.retval.set o.p c, p := o.p + 1 } else none

/-- A loop `for (i = lo; i < lo + n; i++) body`. -/
def forLoop {σ : Type} (body : Nat → σ → Option σ) : Nat → Nat → σ → Option σ
  | 0, _, s => some s
  | n + 1, i, s => do
    let s ← body i s
    forLoop body n (i + 1) s

/-- The statement `*p++ = augmentation_string[MIN(field[x][y], len)]`. -/
def putCell (field : Field) (y x : Nat) (o : Out) : Option Out := do
  let v ← fieldGet field (x : Int) (y : Int)
  let c ← augmentation_string[MIN v len]?
  put o c

/-- One turn of the loop over `y` of "output content". -/
def putRow (field : Field) (y : Nat) (o : Out) : Option Out := do
  let o ← put o '|'
  let o ← forLoop (putCell field y) FLDSIZE_X 0 o
  let o ← put o '|'
  put o '\n'

/-- The statements from `p = retval` to the end: upper border, content, lower
border. -/
def draw (field : Field) (retval : List Char) : Option Out := do
  let o : Out := { retval := retval, p := 0 }
  let o ← put o '+'
  -- output upper border
  let o ← forLoop (fun _ o => put o '-') FLDSIZE_X 0 o
  let o ← put o '+'
  let o ← put o '\n'
  -- output content
  let o ← forLoop (putRow field) FLDSIZE_Y 0 o
  -- output lower border
  let o ← put o '+'
  let o ← forLoop (fun _ o => put o '-') FLDSIZE_X 0 o
  put o '+'

/-- The function `calloc`, whose success is an input: zeroed bytes, or NULL. -/
def calloc (heap : Bool) (nmemb size : Nat) : Option (List Char) :=
  if heap then some (List.replicate (nmemb * size) NUL) else none

/-- The text a `char *` points to: the bytes before the first NUL. -/
def cstring (mem : List Char) : List Char := mem.takeWhile (fun c => c != NUL)

/-- The function `key_fingerprint_randomart`. `heap` tells whether `calloc`
succeeds; the result is the text behind the returned pointer. -/
def key_fingerprint_randomart (heap : Bool) (stream : List (Fin 256)) : Option (List Char) :=
  match calloc heap 1 ((FLDSIZE_X + 3) * (FLDSIZE_Y + 2)) with
  | none => some "OOM".toList
  | some retval => do
    let w ← crawl start stream
    let w ← mark w
    let o ← draw w.field retval
    some (cstring o.retval)

/-! ## The picture as the specification lays it out, and the notions of the proofs -/

/-- The glyph drawn for the cell `field[x][y]`. -/
def glyph (field : Field) (x y : Nat) : Char :=
  augmentation_string.getD (MIN (field.getD (x * FLDSIZE_Y + y) 0) len) ' '

/-- A border line: a corner, `FLDSIZE_X` dashes, a corner. -/
def borderLine : List Char := '+' :: (List.replicate 17 '-' ++ ['+'])

/-- A content line: a bar, the glyphs of the columns 0..16 in order, a bar. -/
def contentLine (g : Nat → Nat → Char) (y : Nat) : List Char :=
  '|' :: ((List.range' 0 17).map (fun x => g x y) ++ ['|'])

/-- The picture of the specification: top border and newline, then the rows
0..8 in order, each with its newline, then the bottom border without one. -/
def layout (g : Nat → Nat → Char) : List Char :=
  (borderLine ++ ['\n'])
    ++ (((List.range' 0 9).map (fun y => contentLine g y ++ ['\n'])).flatten ++ borderLine)

/-- A buffer whose first bytes `w` are written, the `k` bytes after them still
zero, and whose write position is right after `w`. -/
def written (w : List Char) (k : Nat) : Out :=
  { retval := w ++ List.replicate k NUL, p := w.length }

/-- The locals are sound: the field has its 153 cells, the cursor is on a cell,
and no counter exceeds `len - 2`. -/
def Good (w : Worm) : Prop :=
  w.field.length = 153 ∧ inField w.x w.y ∧ ∀ c ∈ w.field, c ≤ 14

/-- The column after one move command. -/
def stepX (x : Int) (input : Nat) : Int :=
  MIN (MAX (x + (if input &&& 0x1 ≠ 0 then 1 else -1)) 0) ((FLDSIZE_X : Int) - 1)

/-- The row after one move command. -/
def stepY (y : Int) (input : Nat) : Int :=
  MIN (MAX (y + (if input &&& 0x2 ≠ 0 then 1 else -1)) 0) ((FLDSIZE_Y : Int) - 1)

/-- The eleven lines of a picture. -/
def pictureLines (g : Nat → Nat → Char) : List (List Char) :=
  borderLine :: ((List.range' 0 9).map (contentLine g) ++ [borderLine])

/-- The field once the markers are written. -/
def marked (w : Worm) : Field := (w.field.set (offset 8 4) 15).set (offset w.x w.y) 16

/-- The cells the cursor enters in `n` turns of the loop over `b`, in order:
the position after the bounds are assured, one for each turn. -/
def movesTrail : Nat → Worm → Nat → List (Int × Int)
  | 0, _, _ => []
  | n + 1, w, input =>
    match move w input with
    | none => []
    | some w' => (w'.x, w'.y) :: movesTrail n w' (input >>> 2)

/-- The cells the cursor enters while the stream is read, four for each byte,
in order. The starting cell is not one of them. -/
def crawlTrail : Worm → List (Fin 256) → List (Int × Int)
  | _, [] => []
  | w, input :: stream =>
    match moves 4 w input.val with
    | none => movesTrail 4 w input.val
    | some w' => movesTrail 4 w input.val ++ crawlTrail w' stream

/-- The column after `n` move commands of `input`, low bits first. -/
def stepsX : Nat → Int → Nat → Int
  | 0, x, _ => x
  | n + 1, x, input => stepsX n (stepX x input) (input >>> 2)

/-- The row after `n` move commands of `input`, low bits first. -/
def stepsY : Nat → Int → Nat → Int
  | 0, y, _ => y
  | n + 1, y, input => stepsY n (stepY y input) (input >>> 2)

/-- The byte `b` with its bit `i` flipped. -/
def flipBit (b : Fin 256) (i : Fin 8) : Fin 256 :=
  ⟨b.val ^^^ 2 ^ i.val,
    Nat.xor_lt_two_pow (show b.val < 2 ^ 8 from b.isLt)
      (Nat.pow_lt_pow_right (by decide) i.isLt)⟩

/-- The `k`-th 2-bit move command of the byte `b`, low bits first, as the
specification words it: `(b / 4^k) mod 4`. -/
def command (b k : Nat) : Nat := b / 4 ^ k % 4

/-- The move along one axis that the bit `j` of `b` asks for: +1 if the bit is
set, -1 otherwise. -/
def bitDelta (b j : Nat) : Int := if b.testBit j then 1 else -1

/-- The `clamp(v, lo, hi)` of the specification. -/
def clamp (v lo hi : Int) : Int := max lo (min v hi)

/-- The byte `b` XORed with 0x55: its four x-direction bits flipped. -/
def mirrorByte (b : Fin 256) : Fin 256 :=
  ⟨b.val ^^^ 0x55, Nat.xor_lt_two_pow (show b.val < 2 ^ 8 from b.isLt) (by decide)⟩

/-- The locals `w'` are the left-right mirror of the locals `w`. -/
def Mirrored (w w' : Worm) : Prop :=
  w'.x = 16 - w.x ∧ w'.y = w.y
    ∧ ∀ x y : Int, inField x y → fieldGet w'.field x y = fieldGet w.field (16 - x) y

/-- The interior cells (x, y) of a picture, x in 0..16 and y in 0..8. -/
def interiorCells : List (Nat × Nat) :=
  (List.range 17).flatMap (fun x => (List.range 9).map (fun y => (x, y)))

/-- The number of interior cells of the text `out` that do not show the
background space; the cell (x, y) is at offset (y + 1) * 20 + 1 + x. -/
def ink (out : List Char) : Nat :=
  interiorCells.countP (fun c => out[(c.2 + 1) * 20 + 1 + c.1]? != some ' ')

/-! ## Lemmas -/

theorem put_written (w : List Char) (k : Nat) (c : Char) (h : 1 ≤ k) :
    put (written w k) c = some (written (w ++ [c]) (k - 1)) := by
  obtain ⟨k, rfl⟩ : ∃ j, k = j + 1 := ⟨k - 1, by omega⟩
  simp [put, written, List.replicate_succ]

theorem forLoop_written (body : Nat → Out → Option Out) (g : Nat → List Char) (m : Nat)
    (n : Nat) :
    ∀ (lo : Nat) (w : List Char) (k : Nat), m * n ≤ k →
      (∀ i w k, lo ≤ i → i < lo + n → m ≤ k →
        body i (written w k) = some (written (w ++ g i) (k - m))) →
      forLoop body n lo (written w k)
        = some (written (w ++ ((List.range' lo n).map g).flatten) (k - m * n)) := by
  induction n with
  | zero => intro lo w k _ _; simp [forLoop]
  | succ n ih =>
    intro lo w k hk hb
    have hm : m ≤ k := by
      have : m * (n + 1) = m * n + m := by ring
      omega
    have h2 : m * n ≤ k - m := by
      have : m * (n + 1) = m * n + m := by ring
      omega
    simp only [forLoop, hb lo w k (le_refl _) (by omega) hm, Option.bind_eq_bind,
      Option.some_bind]
    rw [ih (lo + 1) (w ++ g lo) (k - m) h2
      (fun i w k h1 h2 h3 => hb i w k (by omega) (by omega) h3)]
    have : k - m - m * n = k - m * (n + 1) := by
      have : m * (n + 1) = m * n + m := by ring
      omega
    simp [List.range'_succ, this]

theorem len_eq : len = 16 := by decide

theorem glyph_spec (field : Field) (hf : field.length = 153) (x y : Nat)
    (hx : x < 17) (hy : y < 9) :
    ∃ v, fieldGet field (x : Int) (y : Int) = some v
      ∧ augmentation_string[MIN v len]? = some (glyph field x y) := by
  have hoff : offset (x : Int) (y : Int) = x * FLDSIZE_Y + y := by simp [offset]
  have hlt : x * FLDSIZE_Y + y < field.length := by
    simp only [FLDSIZE_Y, FLDBASE]; omega
  have hin : inField (x : Int) (y : Int) := by
    simp only [inField, FLDSIZE_X, FLDSIZE_Y, FLDBASE]; omega
  refine ⟨field[x * FLDSIZE_Y + y], ?_, ?_⟩
  · simp [fieldGet, hin, hoff, List.getElem?_eq_getElem hlt]
  · have hm : MIN (field[x * FLDSIZE_Y + y]) len < augmentation_string.length := by
      have h17 : augmentation_string.length = 17 := by decide
      rw [h17, len_eq]; unfold MIN; split_ifs <;> omega
    simp [glyph, List.getD_eq_getElem?_getD, List.getElem?_eq_getElem hlt,
      List.getElem?_eq_getElem hm]

theorem putCell_written (field : Field) (hf : field.length = 153) (y : Nat) (hy : y < 9)
    (x : Nat) (w : List Char) (k : Nat) (hx : x < 17) (hk : 1 ≤ k) :
    putCell field y x (written w k) = some (written (w ++ [glyph field x y]) (k - 1)) := by
  obtain ⟨v, hv, hc⟩ := glyph_spec field hf x y hx hy
  simp [putCell, hv, hc, put_written w k _ hk]

theorem flatten_map_singleton {α β : Type} (f : α → β) (l : List α) :
    (l.map (fun x => [f x])).flatten = l.map f := by
  induction l with
  | nil => rfl
  | cons a l ih => simp [ih]

theorem putRow_written (field : Field) (hf : field.length = 153) (y : Nat) (hy : y < 9)
    (w : List Char) (k : Nat) (hk : 20 ≤ k) :
    putRow field y (written w k)
      = some (written (w ++ (contentLine (glyph field) y ++ ['\n'])) (k - 20)) := by
  have hcells := forLoop_written (putCell field y) (fun x => [glyph field x y])
    1 17 0 (w ++ ['|']) (k - 1) (by omega)
    (fun i w k _ h2 h3 => putCell_written field hf y hy i w k (by omega) h3)
  have e1 : k - 1 - 1 * 17 = k - 18 := by omega
  have e2 : k - 18 - 1 = k - 19 := by omega
  have e3 : k - 19 - 1 = k - 20 := by omega
  rw [e1] at hcells
  simp only [putRow, put_written w k _ (show 1 ≤ k by omega), Option.bind_eq_bind,
    Option.some_bind, FLDSIZE_X, FLDBASE, hcells]
  rw [put_written _ (k - 18) _ (by omega), Option.some_bind, e2,
    put_written _ (k - 19) _ (by omega), e3]
  simp [contentLine, flatten_map_singleton]

theorem draw_written (field : Field) (hf : field.length = 153) :
    draw field (List.replicate 220 NUL) = some (written (layout (glyph field)) 1) := by
  have hdash : ∀ (w : List Char) (k : Nat), 17 ≤ k →
      forLoop (fun _ o => put o '-') 17 0 (written w k)
        = some (written (w ++ List.replicate 17 '-') (k - 17)) := by
    intro w k hk
    have h := forLoop_written (fun _ o => put o '-') (fun _ => ['-'])
      1 17 0 w k (by omega) (fun i w k _ _ h3 => put_written w k '-' h3)
    rw [h]
    simp [List.range', List.replicate]
  have hrows := forLoop_written (putRow field)
    (fun y => contentLine (glyph field) y ++ ['\n']) 20 9 0
    (['+'] ++ List.replicate 17 '-' ++ ['+'] ++ ['\n']) 200 (by omega)
    (fun i w k _ h2 h3 => putRow_written field hf i (by omega) w k h3)
  have h0 : ({ retval := List.replicate 220 NUL, p := 0 } : Out) = written [] 220 := by
    simp [written]
  simp only [draw, h0, FLDSIZE_X, FLDSIZE_Y, FLDBASE, Option.bind_eq_bind]
  rw [put_written _ 220 _ (by omega), Option.some_bind, hdash _ _ (by omega), Option.some_bind,
    put_written _ _ _ (by omega), Option.some_bind, put_written _ _ _ (by omega),
    Option.some_bind]
  rw [show [] ++ ['+'] ++ List.replicate 17 '-' ++ ['+'] ++ ['\n']
      = ['+'] ++ List.replicate 17 '-' ++ ['+'] ++ ['\n'] from rfl,
    show 220 - 1 - 17 - 1 - 1 = 200 from rfl, hrows, Option.some_bind,
    put_written _ _ _ (by omega), Option.some_bind, hdash _ _ (by omega), Option.some_bind,
    put_written _ _ _ (by omega)]
  simp [layout, borderLine]

theorem getElem?_flatten_chunks {α : Type} (f : Nat → List α) (m : Nat)
    (hf : ∀ i, (f i).length = m) (rest : List α) (n : Nat) :
    ∀ (lo y j : Nat), y < n → j < m →
      (((List.range' lo n).map f).flatten ++ rest)[y * m + j]? = (f (lo + y))[j]? := by
  induction n with
  | zero => intro lo y j hy; omega
  | succ n ih =>
    intro lo y j hy hj
    cases y with
    | zero =>
      simp only [List.range'_succ, List.map_cons, List.flatten_cons, List.append_assoc]
      rw [List.getElem?_append_left (by rw [hf]; omega)]
      simp
    | succ y =>
      simp only [List.range'_succ, List.map_cons, List.flatten_cons, List.append_assoc]
      rw [List.getElem?_append_right (by rw [hf]; nlinarith)]
      have e : (y + 1) * m + j - (f lo).length = y * m + j := by
        rw [hf, Nat.succ_mul]; omega
      rw [e, ih (lo + 1) y j (by omega) hj]
      congr 2; omega

theorem contentLine_at (g : Nat → Nat → Char) (x y : Nat) (hx : x < 17) :
    (contentLine g y ++ ['\n'])[1 + x]? = some (g x y) := by
  rw [Nat.add_comm]
  simp only [contentLine, List.cons_append, List.getElem?_cons_succ]
  rw [List.append_assoc, List.getElem?_append_left (by simpa using hx)]
  simp [List.getElem?_map, List.getElem?_range', hx]

theorem layout_at (g : Nat → Nat → Char) (x y : Nat) (hx : x < 17) (hy : y < 9) :
    (layout g)[(y + 1) * 20 + 1 + x]? = some (g x y) := by
  have hlen : (borderLine ++ ['\n']).length = 20 := by decide
  have hrow : ∀ i, (contentLine g i ++ ['\n']).length = 20 := by
    intro i; simp [contentLine]
  unfold layout
  rw [List.getElem?_append_right (by rw [hlen]; omega)]
  have e : (y + 1) * 20 + 1 + x - (borderLine ++ ['\n']).length = y * 20 + (1 + x) := by
    rw [hlen]; omega
  rw [e, getElem?_flatten_chunks _ 20 hrow _ 9 0 y (1 + x) hy (by omega), Nat.zero_add]
  exact contentLine_at g x y hx

theorem offset_lt {x y : Int} (h : inField x y) : offset x y < 153 := by
  simp only [inField, FLDSIZE_X, FLDSIZE_Y, FLDBASE] at h
  simp only [offset, FLDSIZE_Y, FLDBASE]
  omega

theorem offset_inj {x y x' y' : Int} (h : inField x y) (h' : inField x' y')
    (e : offset x y = offset x' y') : x = x' ∧ y = y' := by
  simp only [inField, FLDSIZE_X, FLDSIZE_Y, FLDBASE] at h h'
  simp only [offset, FLDSIZE_Y, FLDBASE] at e
  omega

theorem fieldGet_eq (field : Field) (hf : field.length = 153) {x y : Int} (h : inField x y) :
    ∃ v, fieldGet field x y = some v ∧ v ∈ field ∧ field[offset x y]? = some v := by
  have hlt : offset x y < field.length := by rw [hf]; exact offset_lt h
  exact ⟨field[offset x y], by simp [fieldGet, h, List.getElem?_eq_getElem hlt],
    List.getElem_mem _, List.getElem?_eq_getElem hlt⟩

theorem fieldSet_eq (field : Field) (hf : field.length = 153) {x y : Int} (h : inField x y)
    (v : Nat) : fieldSet field x y v = some (field.set (offset x y) (v % 256)) := by
  have hlt : offset x y < field.length := by rw [hf]; exact offset_lt h
  simp [fieldSet, h, hlt]

theorem fieldGet_set_same (field : Field) (hf : field.length = 153) {x y : Int}
    (h : inField x y) (v : Nat) :
    fieldGet (field.set (offset x y) v) x y = some v := by
  have hlt : offset x y < field.length := by rw [hf]; exact offset_lt h
  simp [fieldGet, h, List.getElem?_set_self hlt]

theorem fieldGet_set_other (field : Field) {x y x' y' : Int}
    (h : inField x y) (hne : ¬ (x' = x ∧ y' = y)) (v : Nat) :
    fieldGet (field.set (offset x y) v) x' y' = fieldGet field x' y' := by
  unfold fieldGet
  by_cases h' : inField x' y'
  · have : offset x y ≠ offset x' y' := fun e => hne (by
      have := offset_inj h h' e; exact ⟨this.1.symm, this.2.symm⟩)
    simp [h', List.getElem?_set_ne this]
  · simp [h']

theorem clamp_inField (x y : Int) :
    inField (MIN (MAX x 0) ((FLDSIZE_X : Int) - 1)) (MIN (MAX y 0) ((FLDSIZE_Y : Int) - 1)) := by
  simp only [inField, MIN, MAX, FLDSIZE_X, FLDSIZE_Y, FLDBASE]
  split_ifs <;> omega

theorem start_good : Good start := by
  refine ⟨by simp [start, memset0, FLDSIZE_X, FLDSIZE_Y, FLDBASE], by decide, ?_⟩
  intro c hc
  have : c = 0 := List.eq_of_mem_replicate hc
  omega

theorem move_eq (w : Worm) (input : Nat) (hlen : w.field.length = 153) :
    ∃ v, fieldGet w.field (stepX w.x input) (stepY w.y input) = some v ∧ v ∈ w.field ∧
      move w input = some
        { field := if v < 14 then
            w.field.set (offset (stepX w.x input) (stepY w.y input)) (v + 1) else w.field,
          x := stepX w.x input, y := stepY w.y input } := by
  have hin : inField (stepX w.x input) (stepY w.y input) := clamp_inField _ _
  obtain ⟨v, hv, hmem, -⟩ := fieldGet_eq w.field hlen hin
  refine ⟨v, hv, hmem, ?_⟩
  unfold stepX stepY at hv hin
  simp only [move, hv, Option.bind_eq_bind, Option.some_bind, len_eq, stepX, stepY]
  by_cases hlt : v < 14
  · have e : (v + 1) % 256 = v + 1 := Nat.mod_eq_of_lt (by omega)
    rw [if_pos (by omega), if_pos hlt, fieldSet_eq w.field hlen hin, e, Option.some_bind]
  · rw [if_neg (by omega), if_neg hlt]

theorem move_good (w : Worm) (input : Nat) (h : Good w) :
    ∃ w', move w input = some w' ∧ Good w' := by
  obtain ⟨hlen, -, hcap⟩ := h
  obtain ⟨v, -, hmem, hmove⟩ := move_eq w input hlen
  refine ⟨_, hmove, ?_, clamp_inField _ _, ?_⟩
  · show (if v < 14 then _ else _ : Field).length = 153
    split_ifs <;> simp [hlen]
  · intro c hc
    change c ∈ (if v < 14 then _ else _ : Field) at hc
    split_ifs at hc with hlt
    · rcases List.mem_or_eq_of_mem_set hc with h1 | h1
      · exact hcap c h1
      · omega
    · exact hcap c hc

theorem moves_good (n : Nat) : ∀ (w : Worm) (input : Nat), Good w →
    ∃ w', moves n w input = some w' ∧ Good w' := by
  induction n with
  | zero => intro w _ h; exact ⟨w, rfl, h⟩
  | succ n ih =>
    intro w input h
    obtain ⟨w1, h1, g1⟩ := move_good w input h
    obtain ⟨w2, h2, g2⟩ := ih w1 (input >>> 2) g1
    exact ⟨w2, by simp [moves, h1, h2], g2⟩

theorem crawl_good (stream : List (Fin 256)) : ∀ (w : Worm), Good w →
    ∃ w', crawl w stream = some w' ∧ Good w' := by
  induction stream with
  | nil => intro w h; exact ⟨w, rfl, h⟩
  | cons input stream ih =>
    intro w h
    obtain ⟨w1, h1, g1⟩ := moves_good 4 w input.val h
    obtain ⟨w2, h2, g2⟩ := ih w1 g1
    exact ⟨w2, by simp [crawl, h1, h2], g2⟩

theorem glyph_mem (field : Field) (x y : Nat) : glyph field x y ∈ augmentation_string := by
  unfold glyph
  rw [List.getD_eq_getElem?_getD]
  cases h : augmentation_string[MIN (field.getD (x * FLDSIZE_Y + y) 0) len]? with
  | none => decide
  | some c => exact List.getElem?_mem h

theorem augmentation_plain : ∀ c ∈ augmentation_string, c ≠ NUL ∧ c ≠ '\n' := by decide

theorem layout_eq_intercalate (g : Nat → Nat → Char) :
    layout g = ['\n'].intercalate (pictureLines g) := by
  simp [layout, pictureLines, List.intercalate, List.range', List.intersperse]

theorem mem_pictureLines {g : Nat → Nat → Char} {l : List Char} (hl : l ∈ pictureLines g) :
    l.length = 19 ∧ ∀ c ∈ l, c ∈ ['+', '-', '|'] ∨ ∃ x y, c = g x y := by
  simp only [pictureLines, List.mem_cons, List.mem_append, List.mem_map, List.mem_singleton,
    List.not_mem_nil, or_false] at hl
  have hb : borderLine.length = 19 ∧ ∀ c ∈ borderLine, c ∈ ['+', '-', '|'] ∨ ∃ x y, c = g x y :=
    ⟨by decide, fun c hc => Or.inl (by revert c; decide)⟩
  rcases hl with rfl | ⟨y, -, rfl⟩ | rfl
  · exact hb
  · refine ⟨by simp [contentLine], ?_⟩
    intro c hc
    simp only [contentLine, List.mem_cons, List.mem_append, List.mem_map, List.mem_singleton,
      List.not_mem_nil, or_false] at hc
    rcases hc with rfl | ⟨x, -, rfl⟩ | rfl
    · exact Or.inl (by decide)
    · exact Or.inr ⟨x, y, rfl⟩
    · exact Or.inl (by decide)
  · exact hb

theorem mem_layout {g : Nat → Nat → Char} {c : Char} (hc : c ∈ layout g) :
    c ∈ ['+', '-', '|', '\n'] ∨ ∃ x y, c = g x y := by
  have hb : ∀ c ∈ borderLine, c ∈ ['+', '-', '|', '\n'] := by decide
  simp only [layout, List.mem_append, List.mem_flatten, List.mem_map, List.mem_singleton] at hc
  rcases hc with (h | rfl) | ⟨l, ⟨y, -, rfl⟩, h⟩ | h
  · exact Or.inl (hb c h)
  · exact Or.inl (by decide)
  · simp only [contentLine, List.mem_cons, List.mem_append, List.mem_map, List.mem_singleton,
      List.not_mem_nil, or_false] at h
    rcases h with (rfl | ⟨x, -, rfl⟩ | rfl) | rfl
    · exact Or.inl (by decide)
    · exact Or.inr ⟨x, y, rfl⟩
    · exact Or.inl (by decide)
    · exact Or.inl (by decide)
  · exact Or.inl (hb c h)

theorem layout_plain (field : Field) : ∀ c ∈ layout (glyph field), c ≠ NUL := by
  have hb : ∀ c ∈ ['+', '-', '|', '\n'], c ≠ NUL := by decide
  intro c hc
  rcases mem_layout hc with h | ⟨x, y, rfl⟩
  · exact hb c h
  · exact (augmentation_plain _ (glyph_mem field x y)).1

theorem cstring_written (field : Field) :
    cstring (written (layout (glyph field)) 1).retval = layout (glyph field) := by
  have h : ∀ c ∈ layout (glyph field), (c != NUL) = true := by
    intro c hc; simpa using layout_plain field c hc
  simp only [cstring, written]
  rw [List.takeWhile_append_of_pos h]
  simp [List.replicate]

theorem mark_eq (w : Worm) (h : Good w) :
    mark w = some { w with field := (w.field.set (offset 8 4) 15).set (offset w.x w.y) 16 } := by
  have hc : inField ((FLDSIZE_X / 2 : Nat) : Int) ((FLDSIZE_Y / 2 : Nat) : Int) := by decide
  have h1 := fieldSet_eq w.field h.1 hc (len - 1)
  have h2 := fieldSet_eq (w.field.set (offset ((FLDSIZE_X / 2 : Nat) : Int)
    ((FLDSIZE_Y / 2 : Nat) : Int)) ((len - 1) % 256)) (by simpa using h.1) h.2.1 len
  simp only [mark, h1, h2, Option.bind_eq_bind, Option.some_bind]
  rfl

theorem render_eq (stream : List (Fin 256)) :
    ∃ w, crawl start stream = some w ∧ Good w
      ∧ mark w = some { w with field := marked w }
      ∧ key_fingerprint_randomart true stream = some (layout (glyph (marked w))) := by
  obtain ⟨w, hw, g⟩ := crawl_good stream start start_good
  have hm := mark_eq w g
  refine ⟨w, hw, g, hm, ?_⟩
  have hlen : (marked w).length = 153 := by simpa [marked] using g.1
  have hcalloc : calloc true 1 ((FLDSIZE_X + 3) * (FLDSIZE_Y + 2))
      = some (List.replicate 220 NUL) := by
    simp [calloc, FLDSIZE_X, FLDSIZE_Y, FLDBASE]
  simp only [key_fingerprint_randomart, hcalloc, hw, Option.bind_eq_bind, Option.some_bind]
  rw [hm]
  simp only [Option.some_bind]
  change ((draw (marked w) _).bind _) = _
  rw [draw_written _ hlen, Option.some_bind, cstring_written]

theorem glyph_of_get (field : Field) (hf : field.length = 153) {x y v : Nat}
    (hx : x < 17) (hy : y < 9) (hv : fieldGet field (x : Int) (y : Int) = some v) :
    augmentation_string[MIN v len]? = some (glyph field x y) := by
  obtain ⟨v', hv', hg⟩ := glyph_spec field hf x y hx hy
  rw [hv] at hv'
  cases hv'
  exact hg

theorem marked_length (w : Worm) (h : Good w) : (marked w).length = 153 := by
  simpa [marked] using h.1

theorem center_inField : inField 8 4 := by decide

theorem marked_get_end (w : Worm) (h : Good w) : fieldGet (marked w) w.x w.y = some 16 :=
  fieldGet_set_same _ (by simpa using h.1) h.2.1 16

theorem marked_get_center (w : Worm) (h : Good w) (hne : ¬ (w.x = 8 ∧ w.y = 4)) :
    fieldGet (marked w) 8 4 = some 15 := by
  unfold marked
  rw [fieldGet_set_other _ h.2.1 (fun e => hne ⟨e.1.symm, e.2.symm⟩)]
  exact fieldGet_set_same _ h.1 center_inField 15

theorem marked_get_other (w : Worm) (h : Good w) {x y : Int} (hend : ¬ (x = w.x ∧ y = w.y))
    (hc : ¬ (x = 8 ∧ y = 4)) : fieldGet (marked w) x y = fieldGet w.field x y := by
  unfold marked
  rw [fieldGet_set_other _ h.2.1 hend, fieldGet_set_other _ center_inField hc]

theorem cursor_toNat (w : Worm) (h : Good w) :
    w.x.toNat < 17 ∧ w.y.toNat < 9 ∧ ((w.x.toNat : Nat) : Int) = w.x
      ∧ ((w.y.toNat : Nat) : Int) = w.y := by
  have h2 := h.2.1
  simp only [inField, FLDSIZE_X, FLDSIZE_Y, FLDBASE] at h2
  omega

theorem glyph_end (w : Worm) (h : Good w) : glyph (marked w) w.x.toNat w.y.toNat = 'E' := by
  obtain ⟨hx, hy, ex, ey⟩ := cursor_toNat w h
  have hget : fieldGet (marked w) (w.x.toNat : Int) (w.y.toNat : Int) = some 16 := by
    rw [ex, ey]; exact marked_get_end w h
  have hg := glyph_of_get (marked w) (marked_length w h) hx hy hget
  have : augmentation_string[MIN 16 len]? = some 'E' := by decide
  rw [this] at hg
  exact (Option.some.inj hg).symm

theorem glyph_center (w : Worm) (h : Good w) (hne : ¬ (w.x = 8 ∧ w.y = 4)) :
    glyph (marked w) 8 4 = 'S' := by
  have hget : fieldGet (marked w) ((8 : Nat) : Int) ((4 : Nat) : Int) = some 15 :=
    marked_get_center w h hne
  have hg := glyph_of_get (marked w) (marked_length w h) (by omega) (by omega) hget
  have : augmentation_string[MIN 15 len]? = some 'S' := by decide
  rw [this] at hg
  exact (Option.some.inj hg).symm

theorem move_cursor (w : Worm) (input : Nat) (h : Good w) :
    ∃ w', move w input = some w' ∧ Good w' ∧ w'.x = stepX w.x input
      ∧ w'.y = stepY w.y input := by
  obtain ⟨w', hw', g'⟩ := move_good w input h
  obtain ⟨v, -, -, hmove⟩ := move_eq w input h.1
  rw [hmove] at hw'
  cases hw'
  exact ⟨_, hmove, g', rfl, rfl⟩

theorem step_zero {x y : Int} (h : inField x y) :
    stepX x 0 = max (x - 1) 0 ∧ stepY y 0 = max (y - 1) 0 := by
  simp only [inField, FLDSIZE_X, FLDSIZE_Y, FLDBASE] at h
  simp only [stepX, stepY, MIN, MAX, FLDSIZE_X, FLDSIZE_Y, FLDBASE, Nat.zero_and, ne_eq,
    not_true_eq_false, if_false]
  constructor <;> split_ifs <;> omega

theorem moves_zero (w : Worm) (h : Good w) :
    ∃ w', moves 4 w 0 = some w' ∧ Good w' ∧ w'.x = max (w.x - 4) 0
      ∧ w'.y = max (w.y - 4) 0 := by
  obtain ⟨w1, h1, g1, x1, y1⟩ := move_cursor w 0 h
  obtain ⟨w2, h2, g2, x2, y2⟩ := move_cursor w1 0 g1
  obtain ⟨w3, h3, g3, x3, y3⟩ := move_cursor w2 0 g2
  obtain ⟨w4, h4, g4, x4, y4⟩ := move_cursor w3 0 g3
  refine ⟨w4, by simp [moves, h1, h2, h3, h4], g4, ?_, ?_⟩
  · rw [x4, (step_zero g3.2.1).1, x3, (step_zero g2.2.1).1, x2, (step_zero g1.2.1).1, x1,
      (step_zero h.2.1).1]
    omega
  · rw [y4, (step_zero g3.2.1).2, y3, (step_zero g2.2.1).2, y2, (step_zero g1.2.1).2, y1,
      (step_zero h.2.1).2]
    omega

theorem crawl_zeros (n : Nat) : ∀ w : Worm, Good w →
    ∃ w', crawl w (List.replicate n 0) = some w' ∧ Good w'
      ∧ w'.x = max (w.x - 4 * (n : Int)) 0 ∧ w'.y = max (w.y - 4 * (n : Int)) 0 := by
  induction n with
  | zero =>
    intro w h
    have h2 := h.2.1
    simp only [inField] at h2
    exact ⟨w, rfl, h, by simp [h2.1], by simp [h2.2.2.1]⟩
  | succ n ih =>
    intro w h
    obtain ⟨w1, h1, g1, x1, y1⟩ := moves_zero w h
    obtain ⟨w2, h2, g2, x2, y2⟩ := ih w1 g1
    refine ⟨w2, ?_, g2, ?_, ?_⟩
    · have : ((0 : Fin 256) : Nat) = 0 := rfl
      simp [List.replicate_succ, crawl, this, h1, h2]
    · rw [x2, x1]; push_cast; omega
    · rw [y2, y1]; push_cast; omega

theorem layout_length (g : Nat → Nat → Char) : (layout g).length = 219 := by
  rfl

/-! ## The claims -/

/-- C1 (fixed shape). For every byte sequence the returned text, split on the
newline, has exactly `FLDSIZE_Y + 2 = 11` lines, and every one of them, the
top border, the nine content lines and the bottom border, has exactly
`FLDSIZE_X + 2 = 19` characters. -/
theorem fixed_shape (stream : List (Fin 256)) :
    ∃ out, key_fingerprint_randomart true stream = some out
      ∧ (out.splitOn '\n').length = FLDSIZE_Y + 2
      ∧ (out.splitOn '\n').length = 11
      ∧ (∀ l ∈ out.splitOn '\n', l.length = FLDSIZE_X + 2)
      ∧ (∀ l ∈ out.splitOn '\n', l.length = 19)
      ∧ (out.splitOn '\n').head? = some ('+' :: (List.replicate 17 '-' ++ ['+']))
      ∧ (out.splitOn '\n').getLast? = some ('+' :: (List.replicate 17 '-' ++ ['+'])) := by
  obtain ⟨w, -, -, -, hout⟩ := render_eq stream
  have hplain : ∀ l ∈ pictureLines (glyph (marked w)), '\n' ∉ l := by
    have hb : ∀ c ∈ ['+', '-', '|'], c ≠ '\n' := by decide
    intro l hl hmem
    rcases (mem_pictureLines hl).2 _ hmem with h | ⟨x, y, h⟩
    · exact hb _ h rfl
    · exact (augmentation_plain _ (glyph_mem (marked w) x y)).2 h.symm
  have hsplit : (layout (glyph (marked w))).splitOn '\n' = pictureLines (glyph (marked w)) := by
    rw [layout_eq_intercalate]
    exact List.splitOn_intercalate _ '\n' hplain (by simp [pictureLines])
  refine ⟨_, hout, ?_, ?_, ?_, ?_, ?_, ?_⟩
  · rw [hsplit]; simp [pictureLines, FLDSIZE_Y, FLDBASE]
  · rw [hsplit]; simp [pictureLines]
  · rw [hsplit]; intro l hl; exact (mem_pictureLines hl).1
  · rw [hsplit]; intro l hl; exact (mem_pictureLines hl).1
  · rw [hsplit]; rfl
  · rw [hsplit]; rfl

set_option maxHeartbeats 4000000 in
set_option maxRecDepth 1000000 in
/-- C2 (worked example). For the single byte 0x00 the cursor goes from the
center (8,4) through (7,3), (6,2), (5,1), (4,0) in that order; after `n` of the
four moves the cells entered so far hold the count 1 and every other cell 0.
The picture shows E at column 4 of row 0, a dot at (5,1), (6,2) and (7,3), S
at (8,4) and a space in every other interior cell. -/
theorem example_zero_byte :
    (∀ n < 5,
        (moves n start 0).map (fun w => (w.x, w.y)) = some (8 - (n : Int), 4 - (n : Int))
        ∧ ∀ x < 17, ∀ y < 9,
            (moves n start 0).bind (fun w => fieldGet w.field (Int.ofNat x) (Int.ofNat y))
              = some (if (x, y) ∈ [(7, 3), (6, 2), (5, 1), (4, 0)].take n then 1 else 0))
      ∧ (crawl start [0]).map (fun w => (w.x, w.y)) = some (4, 0)
      ∧ key_fingerprint_randomart true [0] = some
          "+-----------------+\n|    E            |\n|     .           |\n|      .          |\n|       .         |\n|        S        |\n|                 |\n|                 |\n|                 |\n|                 |\n+-----------------+".toList
      ∧ ∀ x < 17, ∀ y < 9,
          (key_fingerprint_randomart true [0]).bind (fun out => out[(y + 1) * 20 + 1 + x]?)
            = some (if (x, y) = (4, 0) then 'E'
                else if (x, y) ∈ [(5, 1), (6, 2), (7, 3)] then '.'
                else if (x, y) = (8, 4) then 'S' else ' ') := by
  have h : key_fingerprint_randomart true [0] = some
      "+-----------------+\n|    E            |\n|     .           |\n|      .          |\n|       .         |\n|        S        |\n|                 |\n|                 |\n|                 |\n|                 |\n+-----------------+".toList := by
    decide!
  refine ⟨by decide!, by decide!, h, ?_⟩
  rw [h]
  decide!

set_option maxHeartbeats 4000000 in
set_option maxRecDepth 1000000 in
/-- C3 (empty input). The render of the empty input succeeds; its interior
shows the end marker E at column 8 of row 4 and the background space in each
of the other 17 * 9 - 1 cells, and no S appears anywhere in the text. -/
theorem empty_input :
    key_fingerprint_randomart true [] = some
        "+-----------------+\n|                 |\n|                 |\n|                 |\n|                 |\n|        E        |\n|                 |\n|                 |\n|                 |\n|                 |\n+-----------------+".toList
      ∧ (∀ x < 17, ∀ y < 9,
          (key_fingerprint_randomart true []).bind (fun out => out[(y + 1) * 20 + 1 + x]?)
            = some (if (x, y) = (8, 4) then 'E' else ' '))
      ∧ augmentation_string[0]? = some ' '
      ∧ (key_fingerprint_randomart true []).map (fun out => decide ('S' ∈ out)) = some false := by
  have h : key_fingerprint_randomart true [] = some
      "+-----------------+\n|                 |\n|                 |\n|                 |\n|                 |\n|        E        |\n|                 |\n|                 |\n|                 |\n|                 |\n+-----------------+".toList := by
    decide!
  refine ⟨h, ?_, by decide, ?_⟩
  · rw [h]; decide!
  · rw [h]; decide!

/-- C4 (saturation invariant). After every prefix of the walk, that is after
all the bytes of `stream` and then `n` further moves of a next byte `input`,
and before the markers are written, every cell of the field holds a count of
at most L - 3 = 14, where L = 17 is the length of the ramp: the reserved values
L - 2 = 15 and L - 1 = 16 never come from accumulation. -/
theorem saturation (stream : List (Fin 256)) (input : Fin 256) (n : Nat) :
    augmentation_string.length = 17
      ∧ ∃ w, (crawl start stream).bind (fun w => moves n w input.val) = some w
        ∧ w.field.length = FLDSIZE_X * FLDSIZE_Y
        ∧ (∀ c ∈ w.field, c ≤ augmentation_string.length - 3)
        ∧ ∀ x y, inField x y →
            ∃ v, fieldGet w.field x y = some v ∧ v ≤ 14 ∧ v ≠ 15 ∧ v ≠ 16 := by
  obtain ⟨w, hw, g⟩ := crawl_good stream start start_good
  obtain ⟨w', hw', g'⟩ := moves_good n w input.val g
  have h17 : augmentation_string.length = 17 := by decide
  refine ⟨h17, w', by simp [hw, hw'], by simpa [FLDSIZE_X, FLDSIZE_Y, FLDBASE] using g'.1, ?_, ?_⟩
  · intro c hc
    rw [h17]
    exact g'.2.2 c hc
  · intro x y hxy
    obtain ⟨v, hv, hmem, -⟩ := fieldGet_eq w'.field g'.1 hxy
    have := g'.2.2 v hmem
    exact ⟨v, hv, this, by omega, by omega⟩

/-- C5 (cursor invariant). The cursor starts at (FLDSIZE_X / 2, FLDSIZE_Y / 2)
= (8, 4), and after every prefix of the walk (all the bytes of `stream`, then
`n` moves of a next byte) it satisfies 0 <= x <= 16 and 0 <= y <= 8; the walk
and the two marker writes never leave the array: neither returns `none`. -/
theorem cursor_in_bounds (stream : List (Fin 256)) (input : Fin 256) (n : Nat) :
    start.x = 8 ∧ start.y = 4
      ∧ (∃ w, (crawl start stream).bind (fun w => moves n w input.val) = some w
          ∧ 0 ≤ w.x ∧ w.x ≤ (FLDSIZE_X : Int) - 1 ∧ w.x ≤ 16
          ∧ 0 ≤ w.y ∧ w.y ≤ (FLDSIZE_Y : Int) - 1 ∧ w.y ≤ 8
          ∧ ∃ v, fieldGet w.field w.x w.y = some v)
      ∧ ∃ w w', crawl start stream = some w ∧ mark w = some w' := by
  obtain ⟨w, hw, g⟩ := crawl_good stream start start_good
  obtain ⟨w', hw', g'⟩ := moves_good n w input.val g
  obtain ⟨v, hv, -, -⟩ := fieldGet_eq w'.field g'.1 g'.2.1
  have hin := g'.2.1
  simp only [inField, FLDSIZE_X, FLDSIZE_Y, FLDBASE] at hin
  refine ⟨by decide, by decide, ⟨w', by simp [hw, hw'], ?_⟩, w, _, hw, mark_eq w g⟩
  simp only [FLDSIZE_X, FLDSIZE_Y, FLDBASE]
  exact ⟨hin.1, by omega, by omega, hin.2.2.1, by omega, by omega, v, hv⟩

/-- C6 (markers). After the walk the center cell is set to L - 2 = 15 and then
the cell of the final cursor to L - 1 = 16, whatever counts they held; so the
picture shows E at the final cursor, and at the center it shows S when the walk
ends elsewhere and E when it ends at the center. -/
theorem markers (stream : List (Fin 256)) :
    ∃ w w' out, crawl start stream = some w ∧ mark w = some w'
      ∧ w'.field = (w.field.set (offset 8 4) (len - 1)).set (offset w.x w.y) len
      ∧ len - 1 = 15 ∧ len = 16
      ∧ fieldGet w'.field w.x w.y = some 16
      ∧ fieldGet w'.field 8 4 = some (if w.x = 8 ∧ w.y = 4 then 16 else 15)
      ∧ key_fingerprint_randomart true stream = some out
      ∧ out[(w.y.toNat + 1) * 20 + 1 + w.x.toNat]? = some 'E'
      ∧ out[(4 + 1) * 20 + 1 + 8]? = some (if w.x = 8 ∧ w.y = 4 then 'E' else 'S') := by
  obtain ⟨w, hw, g, hm, hout⟩ := render_eq stream
  obtain ⟨hx, hy, ex, ey⟩ := cursor_toNat w g
  refine ⟨w, _, _, hw, hm, rfl, by decide, by decide, marked_get_end w g, ?_, hout, ?_, ?_⟩
  · by_cases hc : w.x = 8 ∧ w.y = 4
    · rw [if_pos hc]
      have := marked_get_end w g
      rwa [hc.1, hc.2] at this
    · rw [if_neg hc]
      exact marked_get_center w g hc
  · rw [layout_at _ _ _ hx hy, glyph_end w g]
  · rw [layout_at _ 8 4 (by omega) (by omega)]
    by_cases hc : w.x = 8 ∧ w.y = 4
    · rw [if_pos hc]
      have := glyph_end w g
      rw [hc.1, hc.2] at this
      exact congrArg some this
    · rw [if_neg hc, glyph_center w g hc]

/-- C7 (clamping on all-zero input). After `n >= 1` bytes 0x00 the cursor is at
(max (8 - 4 n) 0, 0), a cell of the boundary of the field; for `n >= 2` it is
the corner (0, 0), and the picture has E in column 0 of row 0. -/
theorem all_zero_clamps (n : Nat) (hn : 1 ≤ n) :
    ∃ w out, crawl start (List.replicate n 0) = some w
      ∧ w.x = max (8 - 4 * (n : Int)) 0 ∧ w.y = 0
      ∧ inField w.x w.y
      ∧ key_fingerprint_randomart true (List.replicate n 0) = some out
      ∧ (2 ≤ n → w.x = 0 ∧ w.y = 0 ∧ out[(0 + 1) * 20 + 1 + 0]? = some 'E') := by
  obtain ⟨w, hw, g, hm, hout⟩ := render_eq (List.replicate n 0)
  obtain ⟨w', hw', -, hx, hy⟩ := crawl_zeros n start start_good
  rw [hw] at hw'
  cases hw'
  have sx : start.x = 8 := by decide
  have sy : start.y = 4 := by decide
  rw [sx] at hx
  rw [sy] at hy
  have hy0 : w.y = 0 := by rw [hy]; omega
  refine ⟨w, _, hw, hx, hy0, g.2.1, hout, ?_⟩
  intro h2
  have hx0 : w.x = 0 := by rw [hx]; omega
  refine ⟨hx0, hy0, ?_⟩
  rw [layout_at _ 0 0 (by omega) (by omega)]
  have := glyph_end w g
  rw [hx0, hy0] at this
  exact congrArg some this

/-- The claim C7 at two bytes 0x00: the cursor is pinned at the corner. -/
theorem all_zero_clamps_witness :
    ∃ w out, crawl start (List.replicate 2 0) = some w
      ∧ w.x = max (8 - 4 * ((2 : Nat) : Int)) 0 ∧ w.y = 0
      ∧ inField w.x w.y
      ∧ key_fingerprint_randomart true (List.replicate 2 0) = some out
      ∧ (2 ≤ 2 → w.x = 0 ∧ w.y = 0 ∧ out[(0 + 1) * 20 + 1 + 0]? = some 'E') :=
  all_zero_clamps 2 (by decide)

/-- C8 (render layout). The returned text is the top border and a newline,
then for y = 0..8 a bar, the ramp characters of `min (field[x][y]) 16` of the
final field for x = 0..16, a bar and a newline, then the bottom border with no
newline; the glyph of the cell (x, y) is at offset (y + 1) * 20 + 1 + x. -/
theorem render_layout (stream : List (Fin 256)) :
    ∃ w out g, (crawl start stream).bind mark = some w
      ∧ key_fingerprint_randomart true stream = some out
      ∧ (∀ x < 17, ∀ y < 9, ∃ v, fieldGet w.field (Int.ofNat x) (Int.ofNat y) = some v
          ∧ " .o+=*BOX@%&#/^SE".toList[min v 16]? = some (g x y))
      ∧ out = layout g
      ∧ out = ('+' :: (List.replicate 17 '-' ++ ['+', '\n']))
          ++ (((List.range 9).map (fun y =>
                '|' :: ((List.range 17).map (fun x => g x y) ++ ['|', '\n']))).flatten
              ++ ('+' :: (List.replicate 17 '-' ++ ['+'])))
      ∧ ∀ x < 17, ∀ y < 9, out[(y + 1) * 20 + 1 + x]? = some (g x y) := by
  obtain ⟨w, hw, g, hm, hout⟩ := render_eq stream
  refine ⟨_, _, glyph (marked w), by rw [hw]; exact hm, hout, ?_, rfl, ?_, ?_⟩
  · intro x hx y hy
    obtain ⟨v, hv, hc⟩ := glyph_spec (marked w) (marked_length w g) x y hx hy
    refine ⟨v, hv, ?_⟩
    have e : MIN v len = min v 16 := by
      rw [len_eq]; unfold MIN; split_ifs <;> omega
    rw [← e]
    exact hc
  · simp [layout, borderLine, contentLine, List.range_eq_range']
  · intro x hx y hy
    exact layout_at _ x y hx hy

/-- C9, as the claim states it, fails: when the allocation fails the function
returns a text, the three characters OOM, where a picture would be. -/
theorem alloc_failure_returns_text :
    key_fingerprint_randomart false [] = some ['O', 'O', 'M']
      ∧ ¬ (∀ text, key_fingerprint_randomart false [] ≠ some text) := by
  refine ⟨by decide, fun h => h ['O', 'O', 'M'] (by decide)⟩

/-- C9, amended. When the allocation of the output buffer fails, the function
returns, for every input, the three-character text OOM through the same return
value as a picture; no input has this text as its picture. -/
theorem alloc_failure_OOM (stream : List (Fin 256)) :
    key_fingerprint_randomart false stream = some "OOM".toList
      ∧ ∀ stream', key_fingerprint_randomart true stream' ≠ some "OOM".toList := by
  refine ⟨by simp [key_fingerprint_randomart, calloc], ?_⟩
  intro stream' h
  obtain ⟨w, -, -, -, hout⟩ := render_eq stream'
  rw [hout] at h
  have := congrArg List.length (Option.some.inj h)
  rw [layout_length] at this
  exact absurd this (by decide)

/-- C10, as the claim states it, fails: the picture of the empty input does not
have (FLDSIZE_X + 3) + FLDSIZE_Y * (FLDSIZE_X + 3) = 200 characters. -/
theorem length_formula_fails :
    (FLDSIZE_X + 3) + FLDSIZE_Y * (FLDSIZE_X + 3) = 200
      ∧ ∃ out, key_fingerprint_randomart true [] = some out
        ∧ out.length ≠ (FLDSIZE_X + 3) + FLDSIZE_Y * (FLDSIZE_X + 3) := by
  obtain ⟨w, -, -, -, hout⟩ := render_eq []
  refine ⟨by decide, _, hout, ?_⟩
  rw [layout_length]
  decide

/-- C10, amended. For every byte sequence the returned text has
(FLDSIZE_X + 3) + FLDSIZE_Y * (FLDSIZE_X + 3) + (FLDSIZE_X + 2) = 219
characters: the border line and the nine content lines with their newlines,
and the bottom border without one; the count does not depend on the input. -/
theorem output_length (stream : List (Fin 256)) :
    ∃ out, key_fingerprint_randomart true stream = some out
      ∧ out.length = (FLDSIZE_X + 3) + FLDSIZE_Y * (FLDSIZE_X + 3) + (FLDSIZE_X + 2)
      ∧ out.length = 219 := by
  obtain ⟨w, -, -, -, hout⟩ := render_eq stream
  exact ⟨_, hout, by rw [layout_length]; decide, layout_length _⟩

/-! ## Counting the visits -/

theorem move_count (w : Worm) (input : Nat) (h : Good w) :
    ∃ w', move w input = some w' ∧ Good w' ∧
      ∀ (x y : Int) (k : Nat), inField x y → fieldGet w.field x y = some (min k 14) →
        fieldGet w'.field x y
          = some (min (k + (if (w'.x, w'.y) = (x, y) then 1 else 0)) 14) := by
  obtain ⟨w', hw', g'⟩ := move_good w input h
  obtain ⟨v, hv, -, hmove⟩ := move_eq w input h.1
  rw [hmove] at hw'
  cases hw'
  refine ⟨_, hmove, g', ?_⟩
  intro x y k hxy hk
  have hin : inField (stepX w.x input) (stepY w.y input) := clamp_inField _ _
  by_cases hc : (stepX w.x input, stepY w.y input) = (x, y)
  · obtain ⟨hx, hy⟩ := Prod.mk.inj hc
    subst hx hy
    rw [hv] at hk
    have hvk : v = min k 14 := Option.some.inj hk
    simp only [if_true]
    by_cases hlt : v < 14
    · simp only [if_pos hlt]
      rw [fieldGet_set_same _ h.1 hin]
      congr 1; omega
    · simp only [if_neg hlt]
      rw [hv]
      congr 1; omega
  · simp only [if_neg hc]
    by_cases hlt : v < 14
    · simp only [if_pos hlt]
      rw [fieldGet_set_other _ hin (fun e => hc (by rw [e.1, e.2])), hk]
      rfl
    · simp only [if_neg hlt]
      rw [hk]
      rfl

theorem moves_count (n : Nat) : ∀ (w : Worm) (input : Nat), Good w →
    ∃ w', moves n w input = some w' ∧ Good w'
      ∧ (movesTrail n w input).length = n
      ∧ (w'.x, w'.y) ∈ (w.x, w.y) :: movesTrail n w input
      ∧ ∀ (x y : Int) (k : Nat), inField x y → fieldGet w.field x y = some (min k 14) →
        fieldGet w'.field x y = some (min (k + (movesTrail n w input).count (x, y)) 14) := by
  induction n with
  | zero =>
    intro w input h
    exact ⟨w, rfl, h, rfl, by simp [movesTrail], fun x y k _ hk => by simpa [movesTrail] using hk⟩
  | succ n ih =>
    intro w input h
    obtain ⟨w1, h1, g1, c1⟩ := move_count w input h
    obtain ⟨w2, h2, g2, l2, m2, c2⟩ := ih w1 (input >>> 2) g1
    refine ⟨w2, by simp [moves, h1, h2], g2, by simp [movesTrail, h1, l2], ?_, ?_⟩
    · simp only [movesTrail, h1]
      exact List.mem_cons_of_mem _ m2
    · intro x y k hxy hk
      have := c2 x y _ hxy (c1 x y k hxy hk)
      rw [this]
      simp only [movesTrail, h1, List.count_cons, beq_iff_eq]
      congr 1; omega

theorem crawl_count (stream : List (Fin 256)) : ∀ (w : Worm), Good w →
    ∃ w', crawl w stream = some w' ∧ Good w'
      ∧ (crawlTrail w stream).length = 4 * stream.length
      ∧ (w'.x, w'.y) ∈ (w.x, w.y) :: crawlTrail w stream
      ∧ ∀ (x y : Int) (k : Nat), inField x y → fieldGet w.field x y = some (min k 14) →
        fieldGet w'.field x y = some (min (k + (crawlTrail w stream).count (x, y)) 14) := by
  induction stream with
  | nil =>
    intro w h
    exact ⟨w, rfl, h, rfl, by simp [crawlTrail], fun x y k _ hk => by simpa [crawlTrail] using hk⟩
  | cons input stream ih =>
    intro w h
    obtain ⟨w1, h1, g1, l1, m1, c1⟩ := moves_count 4 w input.val h
    obtain ⟨w2, h2, g2, l2, m2, c2⟩ := ih w1 g1
    refine ⟨w2, by simp [crawl, h1, h2], g2, ?_, ?_, ?_⟩
    · simp only [crawlTrail, h1, List.length_append, l1, l2, List.length_cons]
      omega
    · simp only [crawlTrail, h1]
      rcases List.mem_cons.1 m2 with e | e
      · rw [e]
        rcases List.mem_cons.1 m1 with e1 | e1
        · rw [e1]; exact List.mem_cons_self _ _
        · exact List.mem_cons_of_mem _ (List.mem_append_left _ e1)
      · exact List.mem_cons_of_mem _ (List.mem_append_right _ e)
    · intro x y k hxy hk
      have := c2 x y _ hxy (c1 x y k hxy hk)
      rw [this]
      simp only [crawlTrail, h1, List.count_append]
      congr 1; omega

/-! ## The glyphs of the marked field -/

theorem ramp_low : ∀ v : Nat, v < 15 →
    augmentation_string[v]? = some (augmentation_string.getD v ' ')
      ∧ augmentation_string.getD v ' ' ∈ " .o+=*BOX@%&#/^".toList
      ∧ augmentation_string.getD v ' ' ≠ 'S' ∧ augmentation_string.getD v ' ' ≠ 'E'
      ∧ (augmentation_string.getD v ' ' = ' ' ↔ v = 0) := by
  decide

theorem glyph_plain (w : Worm) (h : Good w) {x y : Nat} (hx : x < 17) (hy : y < 9)
    (hend : ¬ (x = w.x.toNat ∧ y = w.y.toNat)) (hc : ¬ (x = 8 ∧ y = 4)) :
    ∃ v, fieldGet w.field (x : Int) (y : Int) = some v ∧ v ≤ 14
      ∧ glyph (marked w) x y = augmentation_string.getD v ' ' := by
  obtain ⟨-, -, ex, ey⟩ := cursor_toNat w h
  have hin : inField (x : Int) (y : Int) := by
    simp only [inField, FLDSIZE_X, FLDSIZE_Y, FLDBASE]; omega
  obtain ⟨v, hv, hmem, -⟩ := fieldGet_eq w.field h.1 hin
  have hv14 : v ≤ 14 := h.2.2 v hmem
  have hm : fieldGet (marked w) (x : Int) (y : Int) = some v := by
    rw [marked_get_other w h (fun e => hend (by omega)) (fun e => hc (by omega)), hv]
  have hg := glyph_of_get (marked w) (marked_length w h) hx hy hm
  have e : MIN v len = v := by
    rw [len_eq]; unfold MIN; split_ifs <;> omega
  rw [e, (ramp_low v (by omega)).1] at hg
  exact ⟨v, hv, hv14, (Option.some.inj hg).symm⟩

theorem glyph_E_iff (w : Worm) (h : Good w) {x y : Nat} (hx : x < 17) (hy : y < 9) :
    glyph (marked w) x y = 'E' ↔ (x = w.x.toNat ∧ y = w.y.toNat) := by
  constructor
  · intro hE
    by_contra hend
    by_cases hc : x = 8 ∧ y = 4
    · obtain ⟨rfl, rfl⟩ := hc
      obtain ⟨-, -, ex, ey⟩ := cursor_toNat w h
      have hS := glyph_center w h (fun e => hend (by omega))
      rw [hS] at hE
      exact absurd hE (by decide)
    · obtain ⟨v, -, hv, hg⟩ := glyph_plain w h hx hy hend hc
      rw [hg] at hE
      exact (ramp_low v (by omega)).2.2.2.1 hE
  · rintro ⟨rfl, rfl⟩
    exact glyph_end w h

theorem glyph_S_iff (w : Worm) (h : Good w) {x y : Nat} (hx : x < 17) (hy : y < 9) :
    glyph (marked w) x y = 'S' ↔ (x = 8 ∧ y = 4 ∧ ¬ (w.x = 8 ∧ w.y = 4)) := by
  obtain ⟨-, -, ex, ey⟩ := cursor_toNat w h
  constructor
  · intro hS
    by_cases hend : x = w.x.toNat ∧ y = w.y.toNat
    · rw [(glyph_E_iff w h hx hy).2 hend] at hS
      exact absurd hS (by decide)
    · by_cases hc : x = 8 ∧ y = 4
      · exact ⟨hc.1, hc.2, fun e => hend (by omega)⟩
      · obtain ⟨v, -, hv, hg⟩ := glyph_plain w h hx hy hend hc
        rw [hg] at hS
        exact absurd hS (ramp_low v (by omega)).2.2.1
  · rintro ⟨rfl, rfl, hne⟩
    exact glyph_center w h hne

/-! ## The cursor alone -/

theorem moves_cursor (n : Nat) : ∀ (w : Worm) (input : Nat), Good w →
    ∃ w', moves n w input = some w' ∧ Good w'
      ∧ w'.x = stepsX n w.x input ∧ w'.y = stepsY n w.y input := by
  induction n with
  | zero => intro w _ h; exact ⟨w, rfl, h, rfl, rfl⟩
  | succ n ih =>
    intro w input h
    obtain ⟨w1, h1, g1, x1, y1⟩ := move_cursor w input h
    obtain ⟨w2, h2, g2, x2, y2⟩ := ih w1 (input >>> 2) g1
    exact ⟨w2, by simp [moves, h1, h2], g2, by rw [x2, x1]; rfl, by rw [y2, y1]; rfl⟩

theorem render_cursor (s t : List (Fin 256))
    (h : key_fingerprint_randomart true s = key_fingerprint_randomart true t) :
    ∃ w1 w2, crawl start s = some w1 ∧ crawl start t = some w2
      ∧ w1.x = w2.x ∧ w1.y = w2.y := by
  obtain ⟨w1, hw1, g1, -, ho1⟩ := render_eq s
  obtain ⟨w2, hw2, g2, -, ho2⟩ := render_eq t
  refine ⟨w1, w2, hw1, hw2, ?_⟩
  rw [ho1, ho2] at h
  have hl := Option.some.inj h
  obtain ⟨hx, hy, ex, ey⟩ := cursor_toNat w1 g1
  obtain ⟨-, -, ex2, ey2⟩ := cursor_toNat w2 g2
  have hat := layout_at (glyph (marked w1)) _ _ hx hy
  rw [hl, layout_at _ _ _ hx hy, glyph_end w1 g1] at hat
  have := (glyph_E_iff w2 g2 hx hy).1 (Option.some.inj hat)
  omega

set_option maxRecDepth 1000000 in
theorem one_byte_cursors : ∀ b < 256, ∀ i < 8,
    (stepsX 4 8 b, stepsY 4 4 b) ≠ (stepsX 4 8 (b ^^^ 2 ^ i), stepsY 4 4 (b ^^^ 2 ^ i)) := by
  decide!

/-! ## The bits of a move command -/

theorem bit_tests (input : Nat) :
    (input &&& 0x1 ≠ 0 ↔ input.testBit 0 = true)
      ∧ (input &&& 0x2 ≠ 0 ↔ input.testBit 1 = true) := by
  have h0 := Nat.and_two_pow input 0
  have h1 := Nat.and_two_pow input 1
  simp only [pow_zero, pow_one, mul_one] at h0 h1
  rw [h0, h1]
  constructor <;> cases input.testBit _ <;> simp

theorem step_bits (v : Int) (input : Nat) :
    stepX v input = clamp (v + bitDelta input 0) 0 16
      ∧ stepY v input = clamp (v + bitDelta input 1) 0 8 := by
  have hb := bit_tests input
  simp only [stepX, stepY, clamp, bitDelta, MIN, MAX, FLDSIZE_X, FLDSIZE_Y, FLDBASE]
  constructor
  · by_cases h : input.testBit 0 = true
    · rw [if_pos (hb.1.2 h), if_pos h]; split_ifs <;> omega
    · rw [if_neg (fun e => h (hb.1.1 e)), if_neg h]; split_ifs <;> omega
  · by_cases h : input.testBit 1 = true
    · rw [if_pos (hb.2.2 h), if_pos h]; split_ifs <;> omega
    · rw [if_neg (fun e => h (hb.2.1 e)), if_neg h]; split_ifs <;> omega

theorem move_congr (w : Worm) {i j : Nat} (h0 : i.testBit 0 = j.testBit 0)
    (h1 : i.testBit 1 = j.testBit 1) : move w i = move w j := by
  have e0 : (i &&& 0x1 ≠ 0) = (j &&& 0x1 ≠ 0) :=
    propext ⟨fun h => (bit_tests j).1.2 (h0 ▸ (bit_tests i).1.1 h),
      fun h => (bit_tests i).1.2 (h0 ▸ (bit_tests j).1.1 h)⟩
  have e1 : (i &&& 0x2 ≠ 0) = (j &&& 0x2 ≠ 0) :=
    propext ⟨fun h => (bit_tests j).2.2 (h1 ▸ (bit_tests i).2.1 h),
      fun h => (bit_tests i).2.2 (h1 ▸ (bit_tests j).2.1 h)⟩
  simp only [move, e0, e1]

theorem command_bits (b k : Nat) :
    (command b k).testBit 0 = b.testBit (2 * k)
      ∧ (command b k).testBit 1 = b.testBit (2 * k + 1)
      ∧ (b >>> (2 * k)).testBit 0 = b.testBit (2 * k)
      ∧ (b >>> (2 * k)).testBit 1 = b.testBit (2 * k + 1) := by
  have e : command b k = (b >>> (2 * k)) % 2 ^ 2 := by
    rw [command, Nat.shiftRight_eq_div_pow, Nat.pow_mul]
    norm_num
  rw [e]
  refine ⟨?_, ?_, ?_, ?_⟩
  · rw [Nat.testBit_mod_two_pow, Nat.testBit_shiftRight]; simp
  · rw [Nat.testBit_mod_two_pow, Nat.testBit_shiftRight]; simp
  · rw [Nat.testBit_shiftRight]; simp
  · rw [Nat.testBit_shiftRight]

theorem moves_snoc (k : Nat) : ∀ (w : Worm) (input : Nat),
    moves (k + 1) w input = (moves k w input).bind (fun wk => move wk (input >>> (2 * k))) := by
  induction k with
  | zero =>
    intro w input
    simp [moves]
  | succ k ih =>
    intro w input
    have e : ∀ i : Nat, (i >>> 2) >>> (2 * k) = i >>> (2 * (k + 1)) := by
      intro i
      rw [← Nat.shiftRight_add]
      congr 1; omega
    rw [moves]
    simp only [Option.bind_eq_bind]
    cases hm : move w input with
    | none => simp [moves, hm]
    | some w1 =>
      simp only [Option.some_bind]
      rw [ih w1 (input >>> 2), e]
      conv_rhs => rw [moves]
      simp [hm]

/-! ## Counting a glyph in the picture -/

theorem countP_range_unique (p : Nat → Bool) (a : Nat) (n : Nat)
    (hp : ∀ x < n, (p x = true ↔ x = a)) :
    (List.range' 0 n).countP p = if a < n then 1 else 0 := by
  induction n with
  | zero => simp
  | succ n ih =>
    have ih' := ih (fun x hx => hp x (by omega))
    have e : 0 + 1 * n = n := by omega
    rw [List.range'_concat, List.countP_append, ih', e]
    simp only [List.countP_cons, List.countP_nil]
    by_cases hn : p n = true
    · have := (hp n (by omega)).1 hn
      subst this
      simp [hn]
    · have hne : n ≠ a := fun e => hn ((hp n (by omega)).2 e)
      rw [if_neg hn]
      split_ifs <;> omega

theorem sum_range_unique (f : Nat → Nat) (b k : Nat) (n : Nat)
    (hf : ∀ y < n, f y = if y = b then k else 0) :
    ((List.range' 0 n).map f).sum = if b < n then k else 0 := by
  induction n with
  | zero => simp
  | succ n ih =>
    have ih' := ih (fun y hy => hf y (by omega))
    have e : 0 + 1 * n = n := by omega
    rw [List.range'_concat, List.map_append, List.sum_append, ih', e]
    simp only [List.map_cons, List.map_nil, List.sum_cons, List.sum_nil, hf n (by omega)]
    split_ifs <;> omega

theorem count_layout (g : Nat → Nat → Char) (c : Char) (hc : c ∉ ['+', '-', '|', '\n']) :
    (layout g).count c
      = ((List.range' 0 9).map
          (fun y => (List.range' 0 17).countP (fun x => g x y == c))).sum := by
  have hb : borderLine.count c = 0 := by
    apply List.count_eq_zero_of_not_mem
    intro h
    have : ∀ d ∈ borderLine, d ∈ ['+', '-', '|', '\n'] := by decide
    exact hc (this c h)
  have hn : ¬ ('\n' = c) := fun e => hc (by simp [← e])
  have hbar : ¬ ('|' = c) := fun e => hc (by simp [← e])
  have hrow : ∀ y, (contentLine g y ++ ['\n']).count c
      = (List.range' 0 17).countP (fun x => g x y == c) := by
    intro y
    simp only [contentLine, List.count_append, List.count_cons, List.count_nil, beq_iff_eq,
      hn, hbar, if_false, Nat.add_zero, Nat.zero_add]
    rw [List.count, List.countP_map]
    rfl
  simp only [layout, List.count_append, List.count_flatten, hb, List.map_map,
    List.count_cons, List.count_nil, beq_iff_eq, hn, if_false, Nat.add_zero, Nat.zero_add]
  congr 1
  apply List.map_congr_left
  intro y _
  exact hrow y

theorem count_layout_unique (g : Nat → Nat → Char) (c : Char)
    (hc : c ∉ ['+', '-', '|', '\n']) (a b : Nat)
    (h : ∀ x < 17, ∀ y < 9, (g x y = c ↔ x = a ∧ y = b)) :
    (layout g).count c = if a < 17 ∧ b < 9 then 1 else 0 := by
  rw [count_layout g c hc]
  have hrow : ∀ y < 9, (List.range' 0 17).countP (fun x => g x y == c)
      = if y = b then (if a < 17 then 1 else 0) else 0 := by
    intro y hy
    by_cases hyb : y = b
    · rw [if_pos hyb]
      apply countP_range_unique
      intro x hx
      simp only [beq_iff_eq]
      rw [h x hx y hy]
      exact ⟨fun e => e.1, fun e => ⟨e, hyb⟩⟩
    · rw [if_neg hyb]
      rw [countP_range_unique _ 17 17]
      · simp
      · intro x hx
        simp only [beq_iff_eq]
        rw [h x hx y hy]
        exact ⟨fun e => absurd e.2 hyb, fun e => absurd e (by omega)⟩
  rw [sum_range_unique _ b (if a < 17 then 1 else 0) 9 hrow]
  split_ifs <;> first | rfl | omega

/-! ## The mirror -/

theorem move_get (w : Worm) (input : Nat) (h : Good w) :
    ∃ w' v, move w input = some w' ∧ Good w'
      ∧ w'.x = clamp (w.x + bitDelta input 0) 0 16
      ∧ w'.y = clamp (w.y + bitDelta input 1) 0 8
      ∧ fieldGet w.field w'.x w'.y = some v
      ∧ ∀ x y : Int, fieldGet w'.field x y
          = if x = w'.x ∧ y = w'.y then some (if v < 14 then v + 1 else v)
            else fieldGet w.field x y := by
  obtain ⟨w', hw', g'⟩ := move_good w input h
  obtain ⟨v, hv, -, hmove⟩ := move_eq w input h.1
  rw [hmove] at hw'
  cases hw'
  have hc : inField (stepX w.x input) (stepY w.y input) := clamp_inField _ _
  refine ⟨_, v, hmove, g', (step_bits w.x input).1, (step_bits w.y input).2, hv, ?_⟩
  intro x y
  show fieldGet (if v < 14 then _ else _) x y
    = if x = stepX w.x input ∧ y = stepY w.y input then _ else _
  by_cases hxy : x = stepX w.x input ∧ y = stepY w.y input
  · rw [if_pos hxy, hxy.1, hxy.2]
    by_cases hlt : v < 14
    · rw [if_pos hlt, if_pos hlt, fieldGet_set_same _ h.1 hc]
    · rw [if_neg hlt, if_neg hlt, hv]
  · rw [if_neg hxy]
    by_cases hlt : v < 14
    · rw [if_pos hlt, fieldGet_set_other _ hc hxy]
    · rw [if_neg hlt]

theorem mirror_inField {x y : Int} (h : inField x y) : inField (16 - x) y := by
  simp only [inField, FLDSIZE_X, FLDSIZE_Y, FLDBASE] at h ⊢
  omega

theorem move_mirror (w w' : Worm) (i i' : Nat) (g : Good w) (g' : Good w')
    (m : Mirrored w w') (h0 : i'.testBit 0 = !i.testBit 0) (h1 : i'.testBit 1 = i.testBit 1) :
    ∃ w1 w1', move w i = some w1 ∧ move w' i' = some w1'
      ∧ Good w1 ∧ Good w1' ∧ Mirrored w1 w1' := by
  obtain ⟨w1, v, hw1, g1, x1, y1, hv, f1⟩ := move_get w i g
  obtain ⟨w1', v', hw1', g1', x1', y1', hv', f1'⟩ := move_get w' i' g'
  obtain ⟨mx, my, mf⟩ := m
  have hin := g.2.1
  simp only [inField, FLDSIZE_X, FLDSIZE_Y, FLDBASE] at hin
  have ex : w1'.x = 16 - w1.x := by
    rw [x1', x1, mx]
    unfold clamp bitDelta
    rw [h0]
    cases i.testBit 0 <;> simp <;> omega
  have ey : w1'.y = w1.y := by
    rw [y1', y1, my, bitDelta, bitDelta, h1]
  have evv : v' = v := by
    have := mf w1'.x w1'.y g1'.2.1
    rw [hv', ex, ey] at this
    rw [show (16 : Int) - (16 - w1.x) = w1.x by omega, hv] at this
    exact Option.some.inj this
  refine ⟨w1, w1', hw1, hw1', g1, g1', ex, ey, ?_⟩
  intro x y hxy
  rw [f1' x y, f1 (16 - x) y, evv, mf x y hxy]
  by_cases hc : x = w1'.x ∧ y = w1'.y
  · rw [if_pos hc, if_pos (show 16 - x = w1.x ∧ y = w1.y from
      ⟨by rw [hc.1, ex]; omega, by rw [hc.2, ey]⟩)]
  · rw [if_neg hc, if_neg (show ¬ (16 - x = w1.x ∧ y = w1.y) from
      fun e => hc ⟨by rw [ex]; omega, by rw [ey]; exact e.2⟩)]

theorem moves_mirror (n : Nat) : ∀ (w w' : Worm) (i i' : Nat), Good w → Good w' →
    Mirrored w w' →
    (∀ k < n, i'.testBit (2 * k) = !i.testBit (2 * k)
      ∧ i'.testBit (2 * k + 1) = i.testBit (2 * k + 1)) →
    ∃ w1 w1', moves n w i = some w1 ∧ moves n w' i' = some w1'
      ∧ Good w1 ∧ Good w1' ∧ Mirrored w1 w1' := by
  induction n with
  | zero => intro w w' _ _ g g' m _; exact ⟨w, w', rfl, rfl, g, g', m⟩
  | succ n ih =>
    intro w w' i i' g g' m hb
    obtain ⟨w1, w1', h1, h1', g1, g1', m1⟩ :=
      move_mirror w w' i i' g g' m (hb 0 (by omega)).1 (hb 0 (by omega)).2
    obtain ⟨w2, w2', h2, h2', g2, g2', m2⟩ := ih w1 w1' (i >>> 2) (i' >>> 2) g1 g1' m1
      (fun k hk => by
        have := hb (k + 1) (by omega)
        simp only [Nat.testBit_shiftRight]
        rw [show 2 + 2 * k = 2 * (k + 1) by omega, show 2 + (2 * k + 1) = 2 * (k + 1) + 1 by omega]
        exact this)
    exact ⟨w2, w2', by simp [moves, h1, h2], by simp [moves, h1', h2'], g2, g2', m2⟩

theorem mirrorByte_bits (b : Fin 256) : ∀ k < 4,
    (mirrorByte b).val.testBit (2 * k) = !b.val.testBit (2 * k)
      ∧ (mirrorByte b).val.testBit (2 * k + 1) = b.val.testBit (2 * k + 1) := by
  have c : ∀ j < 8, Nat.testBit 0x55 j = decide (j % 2 = 0) := by decide
  intro k hk
  simp only [mirrorByte, Nat.testBit_xor]
  rw [c (2 * k) (by omega), c (2 * k + 1) (by omega)]
  have e0 : decide (2 * k % 2 = 0) = true := by simp
  have e1 : decide ((2 * k + 1) % 2 = 0) = false := by simp; omega
  rw [e0, e1]
  simp

theorem crawl_mirror (stream : List (Fin 256)) : ∀ (w w' : Worm), Good w → Good w' →
    Mirrored w w' →
    ∃ w1 w1', crawl w stream = some w1 ∧ crawl w' (stream.map mirrorByte) = some w1'
      ∧ Good w1 ∧ Good w1' ∧ Mirrored w1 w1' := by
  induction stream with
  | nil => intro w w' g g' m; exact ⟨w, w', rfl, rfl, g, g', m⟩
  | cons b stream ih =>
    intro w w' g g' m
    obtain ⟨w1, w1', h1, h1', g1, g1', m1⟩ :=
      moves_mirror 4 w w' b.val (mirrorByte b).val g g' m (mirrorByte_bits b)
    obtain ⟨w2, w2', h2, h2', g2, g2', m2⟩ := ih w1 w1' g1 g1' m1
    exact ⟨w2, w2', by simp [crawl, h1, h2], by simp [crawl, h1', h2'], g2, g2', m2⟩

theorem start_mirrored : Mirrored start start := by
  refine ⟨by decide, rfl, ?_⟩
  intro x y hxy
  obtain ⟨v, hv, hmem, -⟩ := fieldGet_eq start.field start_good.1 hxy
  obtain ⟨v', hv', hmem', -⟩ := fieldGet_eq start.field start_good.1 (mirror_inField hxy)
  rw [hv, hv', List.eq_of_mem_replicate hmem, List.eq_of_mem_replicate hmem']

theorem marked_mirror (w w' : Worm) (g : Good w) (g' : Good w') (m : Mirrored w w') :
    ∀ x y : Int, inField x y → fieldGet (marked w') x y = fieldGet (marked w) (16 - x) y := by
  obtain ⟨mx, my, mf⟩ := m
  intro x y hxy
  by_cases hend : x = w'.x ∧ y = w'.y
  · have e : (16 : Int) - x = w.x := by rw [hend.1, mx]; omega
    rw [hend.1, hend.2, marked_get_end w' g', ← hend.1, e, my, marked_get_end w g]
  · have hend2 : ¬ (16 - x = w.x ∧ y = w.y) :=
      fun e => hend ⟨by rw [mx]; omega, by rw [my]; exact e.2⟩
    by_cases hc : x = 8 ∧ y = 4
    · have hne' : ¬ (w'.x = 8 ∧ w'.y = 4) := fun e => hend ⟨by omega, by omega⟩
      have hne : ¬ (w.x = 8 ∧ w.y = 4) := fun e => hne' ⟨by rw [mx]; omega, by rw [my]; exact e.2⟩
      rw [hc.1, hc.2, marked_get_center w' g' hne']
      exact (marked_get_center w g hne).symm
    · rw [marked_get_other w' g' hend hc,
        marked_get_other w g hend2 (fun e => hc ⟨by omega, e.2⟩)]
      exact mf x y hxy

theorem glyph_mirror (w w' : Worm) (g : Good w) (g' : Good w') (m : Mirrored w w')
    {x y : Nat} (hx : x < 17) (hy : y < 9) :
    glyph (marked w') x y = glyph (marked w) (16 - x) y := by
  have hin : inField (x : Int) (y : Int) := by
    simp only [inField, FLDSIZE_X, FLDSIZE_Y, FLDBASE]; omega
  obtain ⟨v, hv, hc⟩ := glyph_spec (marked w') (marked_length w' g') x y hx hy
  rw [marked_mirror w w' g g' m _ _ hin] at hv
  have e : (16 : Int) - (x : Int) = ((16 - x : Nat) : Int) := by omega
  rw [e] at hv
  have hc2 := glyph_of_get (marked w) (marked_length w g) (show 16 - x < 17 by omega) hy hv
  rw [hc] at hc2
  exact Option.some.inj hc2

theorem layout_congr (g g' : Nat → Nat → Char) (h : ∀ x < 17, ∀ y < 9, g x y = g' x y) :
    layout g = layout g' := by
  have hrow : ∀ y ∈ List.range' 0 9,
      (fun y => contentLine g y ++ ['\n']) y = (fun y => contentLine g' y ++ ['\n']) y := by
    intro y hy
    have hy9 : y < 9 := by
      have := List.mem_range'_1.1 hy
      omega
    have hcell : ∀ x ∈ List.range' 0 17, (fun x => g x y) x = (fun x => g' x y) x := by
      intro x hx
      have := List.mem_range'_1.1 hx
      exact h x (by omega) y hy9
    simp only [contentLine]
    rw [List.map_congr_left hcell]
  unfold layout
  rw [List.map_congr_left hrow]

theorem interior_reverse (g : Nat → Nat → Char) (y : Nat) :
    (List.range' 0 17).map (fun x => g (16 - x) y)
      = ((List.range' 0 17).map (fun x => g x y)).reverse := by
  rfl

/-! ## The ink of a picture -/

theorem mem_interiorCells (x y : Nat) : (x, y) ∈ interiorCells ↔ x < 17 ∧ y < 9 := by
  simp [interiorCells, List.mem_flatMap]

set_option maxRecDepth 100000 in
theorem interiorCells_length : interiorCells.length = 153 := by
  rfl

theorem interiorCells_nodup : interiorCells.Nodup := by
  unfold interiorCells
  rw [List.nodup_flatMap]
  refine ⟨fun x _ => (List.nodup_range 9).map (fun a b h => (Prod.mk.inj h).2), ?_⟩
  refine List.Pairwise.imp_of_mem ?_ (List.nodup_range 17)
  intro a b _ _ hab
  rw [Function.onFun, List.disjoint_left]
  intro c hc hc'
  obtain ⟨y, -, rfl⟩ := List.mem_map.1 hc
  obtain ⟨y', -, e⟩ := List.mem_map.1 hc'
  exact hab (Prod.mk.inj e).1.symm

theorem nonblank_on_trail (stream : List (Fin 256)) (w : Worm)
    (hw : crawl start stream = some w) {x y : Nat} (hx : x < 17) (hy : y < 9)
    (hne : glyph (marked w) x y ≠ ' ') :
    ((x : Int), (y : Int)) ∈ ((8 : Int), (4 : Int)) :: crawlTrail start stream := by
  obtain ⟨w0, hw0, g, -, hmem, hc⟩ := crawl_count stream start start_good
  rw [hw] at hw0
  cases hw0
  have hs : ((start.x, start.y) : Int × Int) = (8, 4) := by decide
  rw [hs] at hmem
  by_contra hn
  obtain ⟨-, -, ex, ey⟩ := cursor_toNat w g
  have hend : ¬ (x = w.x.toNat ∧ y = w.y.toNat) := by
    rintro ⟨rfl, rfl⟩
    rw [ex, ey] at hn
    exact hn hmem
  have hcen : ¬ (x = 8 ∧ y = 4) := by
    rintro ⟨rfl, rfl⟩
    exact hn (List.mem_cons_self _ _)
  have hin : inField (x : Int) (y : Int) := by
    simp only [inField, FLDSIZE_X, FLDSIZE_Y, FLDBASE]; omega
  obtain ⟨v, hv, -, hg⟩ := glyph_plain w g hx hy hend hcen
  have h0 : fieldGet start.field (x : Int) (y : Int) = some (min 0 14) := by
    obtain ⟨v0, hv0, hmem0, -⟩ := fieldGet_eq start.field start_good.1 hin
    rw [hv0, List.eq_of_mem_replicate hmem0]; rfl
  have hcount := hc _ _ 0 hin h0
  rw [List.count_eq_zero_of_not_mem (fun h => hn (List.mem_cons_of_mem _ h)), hv] at hcount
  have hv0 : v = 0 := by simpa using hcount
  rw [hv0] at hg
  exact hne (hg.trans (by decide))

/-! ## The claims on the walk, the glyphs and the buffer -/

/-- C12 (visit counting). At the end of the walk, before the markers are
written, the counter of every cell (x, y) equals min (v, 14), where v is the
number of sub-steps, four for each byte, whose resulting clamped cursor
position is (x, y); the starting position is not counted as a visit. -/
theorem visit_counting (stream : List (Fin 256)) :
    ∃ w, crawl start stream = some w
      ∧ (crawlTrail start stream).length = 4 * stream.length
      ∧ ∀ x y : Int, inField x y →
          fieldGet w.field x y = some (min ((crawlTrail start stream).count (x, y)) 14) := by
  obtain ⟨w, hw, -, hl, -, hc⟩ := crawl_count stream start start_good
  refine ⟨w, hw, hl, ?_⟩
  intro x y hxy
  have h0 : fieldGet start.field x y = some (min 0 14) := by
    obtain ⟨v, hv, hmem, -⟩ := fieldGet_eq start.field start_good.1 hxy
    have : v = 0 := List.eq_of_mem_replicate hmem
    rw [hv, this]; rfl
  simpa using hc x y 0 hxy h0

/-- C11 (single-bit sensitivity on one byte). For every byte b and every bit
position i in 0..7, the picture of [b] differs from the picture of [b] with
the bit i flipped; for instance the pictures of [0x00] and [0x01] differ. -/
theorem single_bit_sensitivity (b : Fin 256) (i : Fin 8) :
    (flipBit b i).val = b.val ^^^ 2 ^ i.val
      ∧ key_fingerprint_randomart true [b] ≠ key_fingerprint_randomart true [flipBit b i]
      ∧ key_fingerprint_randomart true [0x00] ≠ key_fingerprint_randomart true [0x01] := by
  have key : ∀ (b : Fin 256) (i : Fin 8),
      key_fingerprint_randomart true [b] ≠ key_fingerprint_randomart true [flipBit b i] := by
    intro b i h
    obtain ⟨w1, w2, h1, h2, hx, hy⟩ := render_cursor _ _ h
    obtain ⟨u1, hu1, -, ux1, uy1⟩ := moves_cursor 4 start b.val start_good
    obtain ⟨u2, hu2, -, ux2, uy2⟩ := moves_cursor 4 start (flipBit b i).val start_good
    simp only [crawl, hu1, hu2, Option.bind_eq_bind, Option.some_bind] at h1 h2
    cases h1
    cases h2
    have sx : start.x = 8 := by decide
    have sy : start.y = 4 := by decide
    rw [sx] at ux1 ux2
    rw [sy] at uy1 uy2
    apply one_byte_cursors b.val b.isLt i.val i.isLt
    rw [← ux1, ← uy1, hx, hy, ux2, uy2]
    rfl
  exact ⟨rfl, key b i, key 0 0⟩

/-- C13 (move decoding, low bits first). The loop that tests bits 0 and 1 and
shifts the byte right by 2 walks the four 2-bit commands (b / 4^k) mod 4,
k = 0, 1, 2, 3, in that order; the sub-step k of b, from any state the walk
reaches, moves x by +1 if bit 2k of b is set and by -1 otherwise, and y
by +1 if bit 2k+1 is set and by -1 otherwise, before the bounds are
assured; the four commands together hold all 8 bits of the byte. -/
theorem move_decoding (stream : List (Fin 256)) (b : Fin 256) (k : Nat) :
    (∀ w : Worm, moves 4 w b.val
        = (((move w (command b.val 0)).bind (fun w => move w (command b.val 1))).bind
            (fun w => move w (command b.val 2))).bind (fun w => move w (command b.val 3)))
      ∧ (∃ wk w', (crawl start stream).bind (fun w => moves k w b.val) = some wk
          ∧ (crawl start stream).bind (fun w => moves (k + 1) w b.val) = some w'
          ∧ move wk (command b.val k) = some w'
          ∧ w'.x = clamp (wk.x + bitDelta b.val (2 * k)) 0 16
          ∧ w'.y = clamp (wk.y + bitDelta b.val (2 * k + 1)) 0 8)
      ∧ b.val = command b.val 0 + 4 * command b.val 1 + 16 * command b.val 2
          + 64 * command b.val 3 := by
  have hcmd : ∀ (w : Worm) (j : Nat), move w (b.val >>> (2 * j)) = move w (command b.val j) := by
    intro w j
    obtain ⟨c0, c1, s0, s1⟩ := command_bits b.val j
    exact move_congr w (by rw [s0, c0]) (by rw [s1, c1])
  refine ⟨?_, ?_, ?_⟩
  · intro w
    rw [moves_snoc 3, moves_snoc 2, moves_snoc 1, moves_snoc 0]
    simp only [moves, Option.some_bind, hcmd]
  · obtain ⟨w0, hw0, g0⟩ := crawl_good stream start start_good
    obtain ⟨wk, hwk, gk⟩ := moves_good k w0 b.val g0
    obtain ⟨w', hw', -, hx, hy⟩ := move_cursor wk (command b.val k) gk
    obtain ⟨c0, c1, -, -⟩ := command_bits b.val k
    refine ⟨wk, w', by simp [hw0, hwk], ?_, hw', ?_, ?_⟩
    · simp only [hw0, Option.some_bind]
      rw [moves_snoc, hwk, Option.some_bind, hcmd, hw']
    · rw [hx, (step_bits wk.x _).1, bitDelta, bitDelta, c0]
    · rw [hy, (step_bits wk.y _).2, bitDelta, bitDelta, c1]
  · have hb := b.isLt
    simp only [command]
    norm_num
    omega

/-- C14 (walls discard the move per axis). From a cursor on the field, one
sub-step with the deltas (dx, dy) of its command leaves x' = x + dx if that is
in 0..16 and x' = x otherwise, and independently y' = y + dy if that is in 0..8
and y' = y otherwise; the counter of the resulting cell is incremented, with
saturation, also when the cursor did not move, and no other cell changes. -/
theorem walls_discard (w : Worm) (input : Nat) (hlen : w.field.length = 153)
    (hin : inField w.x w.y) :
    ∃ w' v, move w input = some w'
      ∧ w'.x = (if 0 ≤ w.x + bitDelta input 0 ∧ w.x + bitDelta input 0 ≤ 16
                then w.x + bitDelta input 0 else w.x)
      ∧ w'.y = (if 0 ≤ w.y + bitDelta input 1 ∧ w.y + bitDelta input 1 ≤ 8
                then w.y + bitDelta input 1 else w.y)
      ∧ fieldGet w.field w'.x w'.y = some v
      ∧ fieldGet w'.field w'.x w'.y = some (if v < len - 2 then v + 1 else v)
      ∧ (v ≤ 14 → fieldGet w'.field w'.x w'.y = some (min (v + 1) 14))
      ∧ ∀ x y : Int, ¬ (x = w'.x ∧ y = w'.y) →
          fieldGet w'.field x y = fieldGet w.field x y := by
  obtain ⟨v, hv, -, hmove⟩ := move_eq w input hlen
  have hc : inField (stepX w.x input) (stepY w.y input) := clamp_inField _ _
  have hnew : fieldGet (if v < 14 then
      w.field.set (offset (stepX w.x input) (stepY w.y input)) (v + 1) else w.field)
      (stepX w.x input) (stepY w.y input) = some (if v < len - 2 then v + 1 else v) := by
    rw [len_eq]
    by_cases hlt : v < 14
    · rw [if_pos hlt, if_pos (by omega), fieldGet_set_same _ hlen hc]
    · rw [if_neg hlt, if_neg (by omega), hv]
  simp only [inField, FLDSIZE_X, FLDSIZE_Y, FLDBASE] at hin
  refine ⟨_, v, hmove, ?_, ?_, hv, hnew, ?_, ?_⟩
  · show stepX w.x input = _
    rw [(step_bits w.x input).1]
    unfold clamp bitDelta
    split_ifs <;> omega
  · show stepY w.y input = _
    rw [(step_bits w.y input).2]
    unfold clamp bitDelta
    split_ifs <;> omega
  · intro h14
    show fieldGet (if v < 14 then _ else _) (stepX w.x input) (stepY w.y input) = _
    rw [hnew, len_eq]
    congr 1
    split_ifs <;> omega
  · intro x y hne
    show fieldGet (if v < 14 then _ else _) x y = _
    split_ifs
    · exact fieldGet_set_other _ hc hne _
    · rfl

/-- The claim C14 at the corner (0, 0) of an empty field with the command 0:
the cursor stays at the corner, whose counter goes from 0 to 1. -/
theorem walls_discard_witness :
    ∃ w' v, move { field := memset0, x := 0, y := 0 } 0 = some w'
      ∧ w'.x = (if 0 ≤ (0 : Int) + bitDelta 0 0 ∧ (0 : Int) + bitDelta 0 0 ≤ 16
                then (0 : Int) + bitDelta 0 0 else 0)
      ∧ w'.y = (if 0 ≤ (0 : Int) + bitDelta 0 1 ∧ (0 : Int) + bitDelta 0 1 ≤ 8
                then (0 : Int) + bitDelta 0 1 else 0)
      ∧ fieldGet memset0 w'.x w'.y = some v
      ∧ fieldGet w'.field w'.x w'.y = some (if v < len - 2 then v + 1 else v)
      ∧ (v ≤ 14 → fieldGet w'.field w'.x w'.y = some (min (v + 1) 14))
      ∧ ∀ x y : Int, ¬ (x = w'.x ∧ y = w'.y) →
          fieldGet w'.field x y = fieldGet memset0 x y :=
  walls_discard { field := memset0, x := 0, y := 0 } 0
    (by simp [memset0, FLDSIZE_X, FLDSIZE_Y, FLDBASE]) (by decide)

/-- C15 (reserved glyphs are unique). The returned text holds exactly one E,
at the cell of the final cursor, and at most one S: exactly one, at the center
cell, when the final cursor is not the center, and none when it is. Every
other interior cell shows one of the 15 characters of ramp indices 0..L-3. -/
theorem reserved_glyphs (stream : List (Fin 256)) :
    ∃ w out, crawl start stream = some w
      ∧ key_fingerprint_randomart true stream = some out
      ∧ out.count 'E' = 1
      ∧ out[(w.y.toNat + 1) * 20 + 1 + w.x.toNat]? = some 'E'
      ∧ out.count 'S' = (if w.x = 8 ∧ w.y = 4 then 0 else 1)
      ∧ (¬ (w.x = 8 ∧ w.y = 4) → out[(4 + 1) * 20 + 1 + 8]? = some 'S')
      ∧ ∀ x < 17, ∀ y < 9, ¬ (x = w.x.toNat ∧ y = w.y.toNat) → ¬ (x = 8 ∧ y = 4) →
          ∃ c, out[(y + 1) * 20 + 1 + x]? = some c ∧ c ∈ " .o+=*BOX@%&#/^".toList := by
  obtain ⟨w, hw, g, -, hout⟩ := render_eq stream
  obtain ⟨hx, hy, ex, ey⟩ := cursor_toNat w g
  refine ⟨w, _, hw, hout, ?_, ?_, ?_, ?_, ?_⟩
  · rw [count_layout_unique (glyph (marked w)) 'E' (by decide) w.x.toNat w.y.toNat
      (fun x hx' y hy' => glyph_E_iff w g hx' hy')]
    rw [if_pos ⟨hx, hy⟩]
  · rw [layout_at _ _ _ hx hy, glyph_end w g]
  · by_cases hc : w.x = 8 ∧ w.y = 4
    · rw [if_pos hc, count_layout_unique (glyph (marked w)) 'S' (by decide) 17 9
        (fun x hx' y hy' => by
          rw [glyph_S_iff w g hx' hy']
          exact ⟨fun e => absurd hc e.2.2, fun e => absurd e.1 (by omega)⟩)]
      rfl
    · rw [if_neg hc, count_layout_unique (glyph (marked w)) 'S' (by decide) 8 4
        (fun x hx' y hy' => by
          rw [glyph_S_iff w g hx' hy']
          exact ⟨fun e => ⟨e.1, e.2.1⟩, fun e => ⟨e.1, e.2, hc⟩⟩)]
      rfl
  · intro hc
    rw [layout_at _ 8 4 (by omega) (by omega), glyph_center w g hc]
  · intro x hx' y hy' hend hc
    obtain ⟨v, -, hv, hg⟩ := glyph_plain w g hx' hy' hend hc
    refine ⟨_, layout_at _ x y hx' hy', ?_⟩
    rw [hg]
    exact (ramp_low v (by omega)).2.1

set_option maxHeartbeats 4000000 in
set_option maxRecDepth 1000000 in
/-- C16 (pictures are ambiguous). The two distinct one-byte inputs [0xC3] and
[0x3C] have the same picture: both walk the loop through (9,5), (8,4), (7,3),
in opposite directions, enter (9,5) and (7,3) once and end at the center. -/
theorem pictures_ambiguous :
    ([0xC3] : List (Fin 256)) ≠ [0x3C]
      ∧ ([0xC3] : List (Fin 256)).length = ([0x3C] : List (Fin 256)).length
      ∧ key_fingerprint_randomart true [0xC3] = key_fingerprint_randomart true [0x3C]
      ∧ key_fingerprint_randomart true [0xC3] = some
          "+-----------------+\n|                 |\n|                 |\n|                 |\n|       .         |\n|        E        |\n|         .       |\n|                 |\n|                 |\n|                 |\n+-----------------+".toList
      ∧ crawlTrail start [0xC3] = [(9, 5), (8, 4), (7, 3), (8, 4)]
      ∧ crawlTrail start [0x3C] = [(7, 3), (8, 4), (9, 5), (8, 4)]
      ∧ (crawl start [0xC3]).map (fun w => (w.x, w.y, fieldGet w.field 9 5, fieldGet w.field 7 3))
          = some (8, 4, some 1, some 1)
      ∧ (crawl start [0x3C]).map (fun w => (w.x, w.y, fieldGet w.field 9 5, fieldGet w.field 7 3))
          = some (8, 4, some 1, some 1) := by
  refine ⟨by decide, rfl, ?_, by decide!, by decide!, by decide!, by decide!, by decide!⟩
  have h1 : key_fingerprint_randomart true [0xC3] = some
      "+-----------------+\n|                 |\n|                 |\n|                 |\n|       .         |\n|        E        |\n|         .       |\n|                 |\n|                 |\n|                 |\n+-----------------+".toList := by
    decide!
  have h2 : key_fingerprint_randomart true [0x3C] = some
      "+-----------------+\n|                 |\n|                 |\n|                 |\n|       .         |\n|        E        |\n|         .       |\n|                 |\n|                 |\n|                 |\n+-----------------+".toList := by
    decide!
  rw [h1, h2]

set_option maxHeartbeats 4000000 in
set_option maxRecDepth 1000000 in
/-- C17 (single-bit sensitivity is not a strict invariant). The inputs
s = [0x00, 0x00] ++ [0x11] * 7 ++ [0x11] and t = [0x00, 0x00] ++ [0x11] * 7 ++
[0x10] have the same length, differ in exactly one bit, the bit 0 of the last
byte, and have the same picture. -/
theorem one_bit_hidden :
    ([0, 0] ++ List.replicate 7 0x11 ++ [0x11] : List (Fin 256)).length
        = ([0, 0] ++ List.replicate 7 0x11 ++ [0x10] : List (Fin 256)).length
      ∧ List.zipWith (fun a b : Fin 256 => a.val ^^^ b.val)
          ([0, 0] ++ List.replicate 7 0x11 ++ [0x11])
          ([0, 0] ++ List.replicate 7 0x11 ++ [0x10])
        = List.replicate 9 0 ++ [2 ^ 0]
      ∧ key_fingerprint_randomart true ([0, 0] ++ List.replicate 7 0x11 ++ [0x11])
        = key_fingerprint_randomart true ([0, 0] ++ List.replicate 7 0x11 ++ [0x10])
      ∧ key_fingerprint_randomart true ([0, 0] ++ List.replicate 7 0x11 ++ [0x11]) = some
          "+-----------------+\n|E^...            |\n|     .           |\n|      .          |\n|       .         |\n|        S        |\n|                 |\n|                 |\n|                 |\n|                 |\n+-----------------+".toList := by
  have h1 : key_fingerprint_randomart true ([0, 0] ++ List.replicate 7 0x11 ++ [0x11]) = some
      "+-----------------+\n|E^...            |\n|     .           |\n|      .          |\n|       .         |\n|        S        |\n|                 |\n|                 |\n|                 |\n|                 |\n+-----------------+".toList := by
    decide!
  have h2 : key_fingerprint_randomart true ([0, 0] ++ List.replicate 7 0x11 ++ [0x10]) = some
      "+-----------------+\n|E^...            |\n|     .           |\n|      .          |\n|       .         |\n|        S        |\n|                 |\n|                 |\n|                 |\n|                 |\n+-----------------+".toList := by
    decide!
  exact ⟨by decide, by decide, by rw [h1, h2], h1⟩

/-- C20 (the output fits its buffer). For every byte sequence the renderer
writes (FLDSIZE_X + 3) * (FLDSIZE_Y + 2) - 1 = 219 characters into the zeroed
allocation of 220 bytes: every write is inside the buffer, the final write
position 219 is before its end, and the last byte is still the NUL. -/
theorem output_fits_buffer (stream : List (Fin 256)) :
    ∃ w retval o, (crawl start stream).bind mark = some w
      ∧ calloc true 1 ((FLDSIZE_X + 3) * (FLDSIZE_Y + 2)) = some retval
      ∧ retval.length = (FLDSIZE_X + 3) * (FLDSIZE_Y + 2)
      ∧ retval.length = 220
      ∧ (∀ c ∈ retval, c = NUL)
      ∧ draw w.field retval = some o
      ∧ o.p = (FLDSIZE_X + 3) * (FLDSIZE_Y + 2) - 1
      ∧ o.p = 219
      ∧ o.p < o.retval.length
      ∧ o.retval.length = 220
      ∧ o.retval[219]? = some NUL
      ∧ (cstring o.retval).length = 219 := by
  obtain ⟨w, hw, g, hm, -⟩ := render_eq stream
  have hd := draw_written (marked w) (marked_length w g)
  have hl := layout_length (glyph (marked w))
  refine ⟨{ w with field := marked w }, List.replicate 220 NUL,
    written (layout (glyph (marked w))) 1, by rw [hw]; exact hm, ?_,
    by rw [List.length_replicate]; decide, List.length_replicate _ _, ?_, hd,
    ?_, hl, ?_, ?_, ?_, ?_⟩
  · simp [calloc, FLDSIZE_X, FLDSIZE_Y, FLDBASE]
  · intro c hc; exact List.eq_of_mem_replicate hc
  · show (layout (glyph (marked w))).length = _
    rw [hl]; decide
  · show (layout (glyph (marked w))).length < (layout (glyph (marked w)) ++ _).length
    simp
  · show (layout (glyph (marked w)) ++ _).length = 220
    simp [hl]
  · show (layout (glyph (marked w)) ++ _)[219]? = some NUL
    rw [List.getElem?_append_right (by omega), hl]
    rfl
  · rw [cstring_written, hl]

/-- C18 (mirror symmetry). Let s' be s with every byte XORed with 0x55. The
final field of s', markers included, is the left-right mirror of the final
field of s: field' (x, y) = field (16 - x, y). The two pictures have the same
layout, borders included, over mirrored glyphs, so in every content row of the
picture of s' the 17 interior characters are those of the same row of the
picture of s, reversed. -/
theorem mirror_symmetry (stream : List (Fin 256)) :
    (∀ b : Fin 256, (mirrorByte b).val = b.val ^^^ 0x55)
      ∧ ∃ w w' out out' g,
        (crawl start stream).bind mark = some w
        ∧ (crawl start (stream.map mirrorByte)).bind mark = some w'
        ∧ (∀ x y : Int, inField x y → fieldGet w'.field x y = fieldGet w.field (16 - x) y)
        ∧ key_fingerprint_randomart true stream = some out
        ∧ key_fingerprint_randomart true (stream.map mirrorByte) = some out'
        ∧ out = layout g
        ∧ out' = layout (fun x y => g (16 - x) y)
        ∧ (∀ y, (List.range' 0 17).map (fun x => g (16 - x) y)
            = ((List.range' 0 17).map (fun x => g x y)).reverse)
        ∧ ∀ x < 17, ∀ y < 9,
            out'[(y + 1) * 20 + 1 + x]? = out[(y + 1) * 20 + 1 + (16 - x)]? := by
  refine ⟨fun b => rfl, ?_⟩
  obtain ⟨w, w', hw, hw', g, g', m⟩ := crawl_mirror stream start start start_good start_good
    start_mirrored
  obtain ⟨u, hu, -, hm, hout⟩ := render_eq stream
  obtain ⟨u', hu', -, hm', hout'⟩ := render_eq (stream.map mirrorByte)
  rw [hw] at hu
  rw [hw'] at hu'
  cases hu
  cases hu'
  have hg : ∀ x < 17, ∀ y < 9,
      glyph (marked w') x y = glyph (marked w) (16 - x) y :=
    fun x hx y hy => glyph_mirror w w' g g' m hx hy
  have hl := layout_congr _ (fun x y => glyph (marked w) (16 - x) y) hg
  refine ⟨_, _, _, _, glyph (marked w), by rw [hw]; exact hm, by rw [hw']; exact hm',
    marked_mirror w w' g g' m, hout, hout', rfl, hl, interior_reverse _, ?_⟩
  intro x hx y hy
  rw [layout_at _ x y hx hy, layout_at _ (16 - x) y (by omega) hy, hg x hx y hy]

/-- C19 (bounded ink). For every input of n bytes, the number of interior
cells of the picture that do not show the background space is at least 1 and
at most min (4 n + 1, 153): a cell that is not blank is the center or one of
the cells entered by the 4 n sub-steps. -/
theorem bounded_ink (stream : List (Fin 256)) :
    ∃ out, key_fingerprint_randomart true stream = some out
      ∧ interiorCells.length = 153
      ∧ 1 ≤ ink out
      ∧ ink out ≤ min (4 * stream.length + 1) 153
      ∧ (crawlTrail start stream).length = 4 * stream.length
      ∧ ∀ x < 17, ∀ y < 9, out[(y + 1) * 20 + 1 + x]? ≠ some ' ' →
          (Int.ofNat x, Int.ofNat y) ∈ ((8 : Int), (4 : Int)) :: crawlTrail start stream := by
  obtain ⟨w, hw, g, -, hout⟩ := render_eq stream
  obtain ⟨w0, hw0, -, hlen, -, -⟩ := crawl_count stream start start_good
  obtain ⟨hx, hy, -, -⟩ := cursor_toNat w g
  have hcells : interiorCells.length = 153 := interiorCells_length
  have hp : ∀ c ∈ interiorCells,
      ((layout (glyph (marked w)))[(c.2 + 1) * 20 + 1 + c.1]? != some ' ') = true →
        ((c.1 : Int), (c.2 : Int)) ∈ ((8 : Int), (4 : Int)) :: crawlTrail start stream := by
    rintro ⟨x, y⟩ hc hne
    obtain ⟨hx', hy'⟩ := (mem_interiorCells x y).1 hc
    rw [layout_at _ x y hx' hy'] at hne
    exact nonblank_on_trail stream w hw hx' hy' (fun e => by simp [e] at hne)
  refine ⟨_, hout, hcells, ?_, ?_, hlen, ?_⟩
  · apply List.countP_pos_iff.2
    refine ⟨(w.x.toNat, w.y.toNat), (mem_interiorCells _ _).2 ⟨hx, hy⟩, ?_⟩
    show ((layout (glyph (marked w)))[(w.y.toNat + 1) * 20 + 1 + w.x.toNat]? != some ' ') = true
    rw [layout_at _ _ _ hx hy, glyph_end w g]
    decide
  · apply le_min
    · rw [ink, List.countP_eq_length_filter]
      have hnd : ((interiorCells.filter (fun c =>
          (layout (glyph (marked w)))[(c.2 + 1) * 20 + 1 + c.1]? != some ' ')).map
          (fun c : Nat × Nat => ((c.1 : Int), (c.2 : Int)))).Nodup := by
        apply List.Nodup.map _ (interiorCells_nodup.filter _)
        rintro ⟨a, b⟩ ⟨a', b'⟩ h
        have := Prod.mk.inj h
        simp only [Nat.cast_inj] at this
        rw [this.1, this.2]
      have hsub : (interiorCells.filter (fun c =>
          (layout (glyph (marked w)))[(c.2 + 1) * 20 + 1 + c.1]? != some ' ')).map
          (fun c : Nat × Nat => ((c.1 : Int), (c.2 : Int)))
          ⊆ ((8 : Int), (4 : Int)) :: crawlTrail start stream := by
        intro p hp'
        obtain ⟨c, hc, rfl⟩ := List.mem_map.1 hp'
        obtain ⟨hc1, hc2⟩ := List.mem_filter.1 hc
        exact hp c hc1 hc2
      have := (List.subperm_of_subset hnd hsub).length_le
      rw [List.length_map, List.length_cons, hlen] at this
      exact this
    · rw [← hcells]
      exact List.countP_le_length _
  · intro x hx' y hy' hne
    apply hp (x, y) ((mem_interiorCells x y).2 ⟨hx', hy'⟩)
    simpa using hne

end Randomart
